import Mathlib

/-!
Verification of the elastic-tensor fitting core of
`pymatgen/analysis/elasticity/elastic.py`.

The source operates on symmetric 3x3 strain/stress matrices and their
6-component Voigt reductions; the reduction itself (together with the rest
of the generic tensor container machinery, `numpy` linear algebra and
`sympy` symbolic algebra) is an external collaborator per the specification.
We therefore embed the pipeline over exact rationals at the 6-component
(Voigt) level: a strain or stress sample is a function `Fin 6 → ℚ`.
Floating-point numerals such as `1e-10` become the corresponding rationals.
Fallible code paths (numpy index errors, `ValueError`s) are embedded with
`Except String`.
-/

namespace Elastic

/-- A 6-component Voigt vector (reduced strain or stress sample). -/
abbrev V6 := Fin 6 → ℚ

/-- The zero Voigt vector. -/
def zeroV : V6 := fun _ => 0

/-- Default tolerance `1e-10` used throughout `elastic.py`. -/
def tol10 : ℚ := 1 / 10 ^ 10

/-- The hard-coded `1e-10` threshold of the strain-state matching test
(`np.abs(vstrains) > 1e-10` in `get_strain_state_dict`). -/
def modeTol : ℚ := 1 / 10 ^ 10

/-- The absolute tolerance `1e-8` of the `np.allclose` test in `find_eq_stress`. -/
def eqTol : ℚ := 1 / 10 ^ 8

/-- `Tensor.zeroed(tol)`: entries of magnitude below `tol` are snapped to zero
(`self[abs(self) < tol] = 0`). -/
def zeroedV (tol : ℚ) (v : V6) : V6 := fun i => if |v i| < tol then 0 else v i

/-!
## `find_eq_stress` (elastic.py lines 902-926)

`find_eq_stress(strains, stresses, tol)` selects the stresses of all samples
whose strain entries are all of magnitude `< tol`.  If any were found it
compares them all against the first one with `np.allclose(eq_stress,
eq_stress[0], atol=1e-8, rtol=0)`; when there are at least two and the test
fails it raises, otherwise it returns the first one.  With no zero-strain
sample it warns and returns the zero stress.  The returned `Bool` records
whether the (non-fatal) warning was emitted.
-/

/-- Embedding of `find_eq_stress`. -/
def find_eq_stress (strains stresses : List V6) (tol : ℚ) :
    Except String (V6 × Bool) :=
  let eqs := ((strains.zip stresses).filter
    (fun p => decide (∀ i, |p.1 i| < tol))).map Prod.snd
  match eqs with
  | [] => .ok (zeroV, true)
  | s0 :: rest =>
    let allSame := (s0 :: rest).all (fun s => decide (∀ i, |s i - s0 i| ≤ eqTol))
    if (s0 :: rest).length > 1 ∧ allSame = false then
      .error "Multiple stresses found for equilibrium strain state"
    else
      .ok (s0, false)

/-!
## `get_strain_state_dict` (elastic.py lines 929-981)

Samples are reduced to Voigt form and zeroed with `tol`
(`Strain(s).zeroed(tol).voigt`; the 3x3-to-Voigt reduction is external
tensor machinery, so we work directly on the 6-component form).  The
independent strain states are the distinct `np.nonzero` index tuples of the
zeroed strains.  For each index set, the samples matched into its group are
those whose `|entry| > 1e-10` pattern (hard-coded threshold!) equals the
index set; the key is the last matched strain divided by its
smallest-magnitude entry among the index set; optionally a synthetic
zero-strain sample carrying the equilibrium stress is appended, and the
group is sorted ascending by the strain value at the first index of the
index set.  numpy failures (`mstrains[-1]` on an empty selection,
`np.argmin` of an empty sequence) are embedded as errors.
-/

/-- The ascending list of all Voigt indices (an explicit spelling of
`range(6)`). -/
def idxList : List (Fin 6) := [0, 1, 2, 3, 4, 5]

/-- `np.nonzero`: ascending list of indices holding exactly nonzero
entries. -/
def exactPattern (v : V6) : List (Fin 6) :=
  idxList.filter (fun i => decide (v i ≠ 0))

/-- Ascending list of indices whose entry magnitude exceeds the hard-coded
`1e-10` of the template-matching test `np.abs(vstrains) > 1e-10`. -/
def modePattern (v : V6) : List (Fin 6) :=
  idxList.filter (fun i => decide (|v i| > modeTol))

/-- `np.argmin` over the values `|f j|` for `j` drawn from a nonempty index
list: the first index attaining the minimum. -/
def argminAbs (f : Fin 6 → ℚ) : Fin 6 → List (Fin 6) → Fin 6
  | i0, [] => i0
  | i0, i :: rest =>
    let j := argminAbs f i rest
    if |f i0| ≤ |f j| then i0 else j

/-- The comparator of the `argsort` step: ascending by the strain value at
index `i0`. -/
def keyLe (i0 : Fin 6) (p q : V6 × V6) : Prop := p.1 i0 ≤ q.1 i0

instance (i0 : Fin 6) : DecidableRel (keyLe i0) := fun p q =>
  inferInstanceAs (Decidable (p.1 i0 ≤ q.1 i0))

/-- Body of the `for ind in independent` loop of `get_strain_state_dict`:
select the samples matching the template of `ind`, build the strain-state
key from the last of them, optionally append the equilibrium sample, and
optionally sort by the strain value at the first index of `ind`. -/
def groupFor (samples : List (V6 × V6)) (veq : V6) (addEq sortStates : Bool)
    (ind : List (Fin 6)) : Except String (V6 × List (V6 × V6)) :=
  let matched := samples.filter (fun p => decide (modePattern p.1 = ind))
  match matched.getLast? with
  | none => .error "index -1 is out of bounds for axis 0 with size 0"
  | some last =>
    match ind with
    | [] => .error "attempt to get argmin of an empty sequence"
    | i0 :: irest =>
      let jmin := argminAbs last.1 i0 irest
      let minval := last.1 jmin
      let key : V6 := fun i => last.1 i / minval
      let g0 := if addEq then matched ++ [(zeroV, veq)] else matched
      let g := if sortStates then List.insertionSort (keyLe i0) g0 else g0
      .ok (key, g)

/-- Effectful `map` over `Except`, the iteration structure of the
dictionary-building loop. -/
def mapEx {α β : Type} (f : α → Except String β) : List α → Except String (List β)
  | [] => .ok []
  | a :: l =>
    match f a with
    | .error msg => .error msg
    | .ok b =>
      match mapEx f l with
      | .error msg => .error msg
      | .ok bs => .ok (b :: bs)

/-- The equilibrium Voigt stress used by `get_strain_state_dict`: the
supplied one if any, otherwise the result of `find_eq_stress` — which is
invoked on the raw (un-zeroed) samples with its own default tolerance
`1e-10` (not the `tol` argument), and only when `add_eq` is set. -/
def veqOf (strains stresses : List V6) (eq_stress : Option V6)
    (addEq : Bool) : Except String V6 :=
  if addEq then
    match eq_stress with
    | some v => Except.ok v
    | none => (find_eq_stress strains stresses tol10).map Prod.fst
  else Except.ok zeroV

/-- Embedding of `get_strain_state_dict`.  The returned association list
(in iteration order of the independent index sets) plays the role of the
Python dict. -/
def get_strain_state_dict (strains stresses : List V6) (eq_stress : Option V6)
    (tol : ℚ) (addEq sortStates : Bool) :
    Except String (List (V6 × List (V6 × V6))) :=
  match veqOf strains stresses eq_stress addEq with
  | .error msg => .error msg
  | .ok veq =>
    mapEx
      (groupFor ((strains.map (zeroedV tol)).zip (stresses.map (zeroedV tol)))
        veq addEq sortStates)
      ((strains.map (zeroedV tol)).map exactPattern).dedup

/-!
## `get_symbol_list` (elastic.py lines 1022-1043)

`get_symbol_list(rank, dim=6)` enumerates
`itertools.combinations_with_replacement(range(dim), rank)` — the
non-decreasing `rank`-tuples over `0..dim-1` in lexicographic order —
allocates one fresh `sp.Symbol` per tuple (the symbol name
`"c_" + digits` is injectively determined by the tuple, so symbols are
modelled by their canonical tuples), and writes that symbol into every
permutation of the tuple inside a dense `dim^rank` object array.  The dense
array is embedded as a function on index tuples (`List ℕ`), built by the
same sequence of writes. -/

/-- `itertools.combinations_with_replacement`: the non-decreasing `r`-tuples
with entries in `[lo, d)`, in lexicographic order. -/
def cwrFrom (d : ℕ) : ℕ → ℕ → List (List ℕ)
  | _, 0 => [[]]
  | lo, r + 1 =>
    (List.range' lo (d - lo)).flatMap fun i => (cwrFrom d i r).map (i :: ·)

/-- One pass of the inner loop `for perm in itertools.permutations(idx):
c_arr[perm] = c_vec[n]` — every permutation of `idx` is assigned the symbol
of `idx` (modelled by `idx` itself). -/
def writeAll (idx : List ℕ) (arr : List ℕ → List ℕ) : List ℕ → List ℕ :=
  idx.permutations.foldl (fun a p => Function.update a p idx) arr

/-- The dense symbol array of `get_symbol_list`: all writes of the double
loop applied to the zero-initialized array (unwritten cells keep a junk
value, as in the `np.zeros(..., dtype=object)` original). -/
def symbolArray (dim rank : ℕ) : List ℕ → List ℕ :=
  (cwrFrom dim 0 rank).foldl (fun arr idx => writeAll idx arr) (fun _ => [])

/-- Embedding of `get_symbol_list(rank, dim)`: the symbol vector (symbols
modelled by their canonical tuples, in enumeration order) and the dense
symbol array. -/
def get_symbol_list (rank : ℕ) (dim : ℕ) :
    List (List ℕ) × (List ℕ → List ℕ) :=
  (cwrFrom dim 0 rank, symbolArray dim rank)

/-!
## `get_diff_coeff` (elastic.py lines 1066-1081)

`get_diff_coeff(hvec, n)` builds the Vandermonde system
`sum_j hvec[j]^i * x_j = (n! if i == n else 0)` for `i = 0..m-1`
(`a = np.vstack([hvec]*acc) ** exp`, `b[n] = factorial(n)`) and calls the
external dense solver `np.linalg.solve(a, b)`.  The embedding constructs
the unique solution explicitly through Lagrange basis polynomials:
`x_j = n! * (coefficient of X^n in prod_(k≠j) (X - h_k)) / prod_(k≠j)
(h_j - h_k)`; theorem `C3_diff_coeff_exact` proves that this vector solves
every row of the system, which is precisely the claim. -/

/-- Coefficient-list polynomials: `[a0, a1, ...]` stands for
`a0 + a1*X + ...`.  Scaling by a constant. -/
def polyScale (c : ℚ) (p : List ℚ) : List ℚ := p.map (c * ·)

/-- Coefficient-wise sum of two coefficient lists. -/
def polyAdd : List ℚ → List ℚ → List ℚ
  | [], q => q
  | p, [] => p
  | a :: p, b :: q => (a + b) :: polyAdd p q

/-- Multiplication of a coefficient list by the linear factor `X - h`. -/
def polyMulLin (h : ℚ) (p : List ℚ) : List ℚ :=
  polyAdd (polyScale (-h) p) (0 :: p)

/-- The stencil values other than the `j`-th one. -/
def otherNodes (hs : List ℚ) (j : ℕ) : List ℚ :=
  ((List.range hs.length).filter (· ≠ j)).map (fun k => hs.getD k 0)

/-- Coefficient list of `prod_(k≠j) (X - h_k)` (the `j`-th Lagrange basis
numerator). -/
def nodesProd (hs : List ℚ) (j : ℕ) : List ℚ :=
  (otherNodes hs j).foldr polyMulLin [1]

/-- `prod_(k≠j) (h_j - h_k)` (the `j`-th Lagrange basis denominator). -/
def denomProd (hs : List ℚ) (j : ℕ) : ℚ :=
  ((otherNodes hs j).map (fun h => hs.getD j 0 - h)).prod

/-- Embedding of `get_diff_coeff(hvec, n)`: the (unique) solution vector of
the Vandermonde system, in closed Lagrange form. -/
def get_diff_coeff (hs : List ℚ) (n : ℕ) : List ℚ :=
  (List.range hs.length).map
    (fun j => (n.factorial : ℚ) * (nodesProd hs j).getD n 0 / denomProd hs j)

/-- Proof-side bridge from coefficient lists to `Polynomial ℚ`; used only
inside lemmas (the executable solver above never touches it). -/
noncomputable def toPoly : List ℚ → Polynomial ℚ
  | [] => 0
  | a :: p => Polynomial.C a + Polynomial.X * toPoly p

/-!
## `diff_fit` (elastic.py lines 842-899) and `generate_pseudo` (984-1019),
specialized to `order = 2` — the case the round-trip claim C1 fixes; the
loops `for _ord in range(1, order)` and `for degree in range(2, order+1)`
then run for the single degree 2.

For degree 2 the sympy expressions are linear in the symbols: the per-state
expression vector is `diff(c_arr · (ray*s), s) = sum_k c_arr[j,k]*ray[k]`,
and `v_diff` with respect to a symbol extracts its coefficient.  The
pseudo-inverse `np.linalg.pinv` is an external dense-linear-algebra
capability: it is passed to the embedding as an oracle `P`, constrained in
the theorems by the property the Moore-Penrose inverse provably has for the
full-column-rank coefficient matrix that arises (`P · pseudoMat2 = 1`). -/

/-- The unit Voigt ray along index `i` (a row of `np.eye(6)`). -/
def eV (i : Fin 6) : V6 := fun k => if k = i then 1 else 0

/-- The six independent Voigt strain states
(`strain_states = [tuple(ss) for ss in np.eye(6)]`). -/
def unitStates : List V6 := (List.finRange 6).map eV

/-- `np.dot` of two equal-length vectors. -/
def dotL (a b : List ℚ) : ℚ := ((a.zip b).map (fun p => p.1 * p.2)).sum

/-- `strain_state.index(1)`: the first position holding exactly 1
(`ValueError` — modelled as `none` — if absent). -/
def find1 (v : V6) : Option (Fin 6) :=
  (idxList.filter (fun i => decide (v i = 1))).head?

/-- The rank-2 symbol at Voigt position `(i, k)` of the dense symbol array
(`c_arr[i, k]` of `get_symbol_list(2)`). -/
def sym2 (i k : Fin 6) : List ℕ := symbolArray 6 2 [i.val, k.val]

/-- Coefficient of symbol `s` in the degree-2 expression for ray `ray` at
Voigt component `j`: `v_diff` applied to
`diff(c_arr · (ray*s), s)[j] = sum_k c_arr[j,k] * ray[k]`. -/
def pseudoRow (ray : V6) (j : Fin 6) (s : List ℕ) : ℚ :=
  ∑ k : Fin 6, (if sym2 j k = s then ray k else 0)

/-- The stacked `6N x #symbols` coefficient matrix of `generate_pseudo`
for degree 2; row `r` corresponds to strain state `r / 6` and Voigt
component `r % 6` (state-major `ravel` order). -/
def pseudoMat2 (states : List V6) (r : ℕ) (s : List ℕ) : ℚ :=
  pseudoRow (states.getD (r / 6) zeroV) ⟨r % 6, Nat.mod_lt _ (by norm_num)⟩ s

/-- The per-state first-derivative vector of `diff_fit` (order 2): locate
the stencil axis via `strain_state.index(1)`, take the group's strain
column there as `hvec`, and apply the finite-difference coefficients to the
group's stress columns (`np.dot(coef, data["stresses"])`). -/
def stateDeriv (e : V6 × List (V6 × V6)) : Except String (Fin 6 → ℚ) :=
  match find1 e.1 with
  | none => Except.error "tuple.index(x): x not in tuple"
  | some i1 =>
    Except.ok (fun j : Fin 6 =>
      dotL (get_diff_coeff (e.2.map (fun p => p.1 i1)) 1)
        (e.2.map (fun p => p.2 j)))

/-- Embedding of `diff_fit(strains, stresses, eq_stress, order=2, tol)`:
classify, differentiate each state's stresses along its stencil, stack, and
apply the external pseudo-inverse oracle `P` to recover the symbol values;
the result is the Voigt 6x6 array obtained by `v_subs` on the dense symbol
array (`Tensor.from_voigt`, external container machinery, is dropped: the
comparison in C1 happens at the Voigt level). -/
def diff_fit2 (P : List ℕ → ℕ → ℚ) (strains stresses : List V6)
    (eq_stress : Option V6) (tol : ℚ) :
    Except String (Fin 6 → Fin 6 → ℚ) :=
  (get_strain_state_dict strains stresses eq_stress tol true true).bind
    fun d => (mapEx stateDeriv d).bind
      fun derivs =>
        let svec : List ℚ := derivs.flatMap (fun dv => idxList.map dv)
        Except.ok (fun i j =>
          ∑ r ∈ Finset.range svec.length, P (sym2 i j) r * svec.getD r 0)

/-- The Moore-Penrose pseudo-inverse of the degree-2 coefficient matrix
arising from the six unit strain states: for this matrix the columns have
disjoint supports, so the pseudo-inverse is the transpose with each row
scaled by the inverse squared column norm (1 for a diagonal symbol `[a,a]`,
2 for an off-diagonal one). -/
def P0 : List ℕ → ℕ → ℚ := fun s r =>
  pseudoMat2 unitStates r s / (if s.getD 0 0 = s.getD 1 0 then 1 else 2)

/-- Clamp a natural number into `Fin 6` (index decoding for symbol
tuples). -/
def finOf (n : ℕ) : Fin 6 := if h : n < 6 then ⟨n, h⟩ else 0

/-- The value a Voigt matrix assigns to a rank-2 symbol tuple. -/
def symVal (Cv : Fin 6 → Fin 6 → ℚ) (s : List ℕ) : ℚ :=
  Cv (finOf (s.getD 0 0)) (finOf (s.getD 1 0))

/-!
## `ElasticTensor.from_independent_strains` (elastic.py lines 491-523)

Calls `get_strain_state_dict` with its default tolerance (`1e-10`) and
`add_eq`/`sort` enabled, raises naming the missing unit states if any of
the six is absent, warns when extra states are present, and fits each
`c_ij` as the degree-1 `np.polyfit` slope (external least-squares, modelled
by the closed normal-equation formula) of the group's strain column `ii`
against its stress column `jj`; the result is `from_voigt(c_ij).zeroed(tol)`
(container machinery external: the embedding returns the zeroed Voigt
matrix).  `vasp=False` throughout (the claims do not involve the vasp unit
conversion). -/

/-- Degree-1 `np.polyfit` slope: the least-squares line slope through
`(xs, ys)` by the normal equations. -/
def lsqSlope (xs ys : List ℚ) : ℚ :=
  ((xs.length : ℚ) * dotL xs ys - xs.sum * ys.sum)
    / ((xs.length : ℚ) * dotL xs xs - xs.sum * xs.sum)

/-- Python dict lookup on the association list: the LAST binding of a key
wins (later writes overwrite earlier ones). -/
def dictLookup (entries : List (V6 × List (V6 × V6))) (key : V6) :
    Option (List (V6 × V6)) :=
  ((entries.filter (fun e => decide (e.1 = key))).getLast?).map Prod.snd

/-- The `c_ij` double loop of `from_independent_strains`: slope of the
`ii`-th strain column against the `jj`-th stress column of the group stored
under the `ii`-th unit strain state. -/
def fitFromDict (d : List (V6 × List (V6 × V6))) : Fin 6 → Fin 6 → ℚ :=
  fun ii jj =>
    match dictLookup d (eV ii) with
    | none => 0
    | some g => lsqSlope (g.map (fun p => p.1 ii)) (g.map (fun p => p.2 jj))

/-- Errors of `from_independent_strains`: a classifier failure, or the
`ValueError` naming the missing independent strain states. -/
inductive IndepFitError : Type
  | classifier (msg : String)
  | missing (states : List V6)
deriving DecidableEq

/-- Embedding of `ElasticTensor.from_independent_strains` (`vasp=False`).
The returned `Bool` records whether the extra-strain-states warning was
emitted; the matrix is the zeroed Voigt fit. -/
def from_independent_strains (strains stresses : List V6)
    (eq_stress : Option V6) (tol : ℚ) :
    Except IndepFitError (Bool × (Fin 6 → Fin 6 → ℚ)) :=
  match get_strain_state_dict strains stresses eq_stress tol10 true true with
  | .error msg => .error (.classifier msg)
  | .ok d =>
    let keys := d.map Prod.fst
    let missing := unitStates.filter (fun s => decide (s ∉ keys))
    if missing ≠ [] then .error (.missing missing)
    else
      .ok (decide (∃ k ∈ keys, k ∉ unitStates),
        fun ii jj =>
          if |fitFromDict d ii jj| < tol then 0 else fitFromDict d ii jj)

/-- Unit strain along Voigt index 0 (concrete input for witnesses). -/
def e0V : V6 := fun i => if i = 0 then 1 else 0

/-- Unit strain along Voigt index 1 (concrete input for witnesses). -/
def e1V : V6 := fun i => if i = 1 then 1 else 0

/-- A boundary strain: entry exactly `1e-10` at index 0 and `1` at index 1.
Its exact nonzero pattern is `[0, 1]` but its `|entry| > 1e-10` pattern is
only `[1]`. -/
def sBnd : V6 := fun i => if i = 0 then tol10 else if i = 1 then 1 else 0

/-- The strain `(1, 1, 0, 0, 0, 0)` (nonzero pattern `[0, 1]`). -/
def s11V : V6 := fun i => if i = 0 ∨ i = 1 then 1 else 0

/-!
## `NthOrderElasticTensor.__new__` (elastic.py lines 55-67)

The constructor first builds the underlying tensor (a rank-`r` array over
dimension 3; the generic `Tensor` container is external machinery, embedded
here as a bare function on index tuples), then raises
`ValueError("ElasticTensor must have even rank")` for odd rank, and finally
warns — without failing — when `is_voigt_symmetric(tol)` does not hold.

`Tensor.is_voigt_symmetric` lives outside the provided source.
Modelled from the spec: "symmetric under the standard Voigt index-pair
symmetries", i.e. invariant (entrywise within `tol`) under swapping the two
members of any of the consecutive index pairs (0,1), (2,3), ... .
-/

/-- A rank-`r` tensor over dimension 3, as a function on index tuples. -/
abbrev TensorArr (r : ℕ) := (Fin r → Fin 3) → ℚ

/-- Swap positions `a` and `b` of an index tuple. -/
def swapIdx {r : ℕ} (a b : Fin r) (f : Fin r → Fin 3) : Fin r → Fin 3 :=
  fun i => if i = a then f b else if i = b then f a else f i

/-- Modelled from the spec: `Tensor.is_voigt_symmetric(tol)` — the tensor is
invariant, entrywise within `tol`, under exchanging the two indices of any
consecutive Voigt index pair `(2p, 2p+1)`. -/
def isVoigtSymmetric {r : ℕ} (a : TensorArr r) (tol : ℚ) : Prop :=
  ∀ p : Fin r, ∀ q : Fin r, (p : ℕ) % 2 = 0 → (q : ℕ) = p + 1 →
    ∀ f, |a f - a (swapIdx p q f)| ≤ tol

instance {r : ℕ} (a : TensorArr r) (tol : ℚ) :
    Decidable (isVoigtSymmetric a tol) := by
  unfold isVoigtSymmetric; infer_instance

/-- Result of tensor construction: the stored array together with a flag
recording whether the symmetry warning was emitted. -/
structure TensorResult (r : ℕ) where
  arr : TensorArr r
  warned : Bool

/-- Embedding of `NthOrderElasticTensor.__new__(input_array, tol)`. -/
def NthOrderElasticTensor.new {r : ℕ} (a : TensorArr r) (tol : ℚ) :
    Except String (TensorResult r) :=
  if r % 2 ≠ 0 then
    .error "ElasticTensor must have even rank"
  else
    .ok ⟨a, ! decide (isVoigtSymmetric a tol)⟩

/-!
## `ElasticTensor` moduli and the `raise_if_unphysical` guard
(elastic.py lines 116-127, 164-198, 230-397, 429-464)

`ElasticTensor` holds a rank-4 tensor; every property below reads only its
6x6 Voigt matrix, so the embedding works on `M : Fin 6 → Fin 6 → ℚ`
directly.  `compliance_tensor` is `np.linalg.inv(self.voigt)` — numpy
dense linear algebra, an external collaborator — so the compliance Voigt
matrix `S` is passed alongside `M` (the witness supplies a concrete pair
verifying `M·S = 1`).  The structure-dependent sound-velocity and
thermal-conductivity values are irrational reals (`** 0.5`, `** (2/3)`,
cube roots of rationals): those numeric payloads are external float math
and are erased to `Unit`, while every guard and `raise` of the source is
kept — which is exactly the behaviour the error-handling claims concern. -/

/-- The first three Voigt indices (the `[:3, :3]` block). -/
def idx3 : List (Fin 6) := [0, 1, 2]

/-- The last three Voigt indices (the `[3:, 3:]` block diagonal). -/
def idx3s : List (Fin 6) := [3, 4, 5]

/-- `voigt[:3, :3].trace()`. -/
def trace3 (M : Fin 6 → Fin 6 → ℚ) : ℚ := (idx3.map (fun i => M i i)).sum

/-- `voigt[3:, 3:].trace()`. -/
def trace3s (M : Fin 6 → Fin 6 → ℚ) : ℚ := (idx3s.map (fun i => M i i)).sum

/-- `np.triu(voigt[:3, :3]).sum()`: upper-triangular (diagonal included)
sum of the upper-left block. -/
def triu3 (M : Fin 6 → Fin 6 → ℚ) : ℚ :=
  (idx3.map (fun i => ((idx3.filter (fun j => decide (i ≤ j))).map
    (fun j => M i j)).sum)).sum

/-- `k_voigt = voigt[:3, :3].mean()`. -/
def k_voigt (M : Fin 6 → Fin 6 → ℚ) : ℚ :=
  (idx3.map (fun i => (idx3.map (fun j => M i j)).sum)).sum / 9

/-- `g_voigt = (2*tr - triu.sum + 3*tr44) / 15`. -/
def g_voigt (M : Fin 6 → Fin 6 → ℚ) : ℚ :=
  (2 * trace3 M - triu3 M + 3 * trace3s M) / 15

/-- `k_reuss = 1 / compliance.voigt[:3, :3].sum()`. -/
def k_reuss (S : Fin 6 → Fin 6 → ℚ) : ℚ :=
  1 / (idx3.map (fun i => (idx3.map (fun j => S i j)).sum)).sum

/-- `g_reuss = 15 / (8*tr - 4*triu.sum + 3*tr44)` of the compliance. -/
def g_reuss (S : Fin 6 → Fin 6 → ℚ) : ℚ :=
  15 / (8 * trace3 S - 4 * triu3 S + 3 * trace3s S)

/-- `k_vrh = 0.5*(k_voigt + k_reuss)`. -/
def k_vrh (M S : Fin 6 → Fin 6 → ℚ) : ℚ := (k_voigt M + k_reuss S) / 2

/-- `g_vrh = 0.5*(g_voigt + g_reuss)`. -/
def g_vrh (M S : Fin 6 → Fin 6 → ℚ) : ℚ := (g_voigt M + g_reuss S) / 2

/-- The structure data read by the sound-velocity formulas (site count,
atom count, composition weight, volume); only rational scalars, feeding
the erased numeric payloads. -/
structure Structure : Type where
  n_sites : ℚ
  n_atoms : ℚ
  weight : ℚ
  volume : ℚ

/-- The `raise_if_unphysical` decorator: raise before entering the wrapped
function body when `self.k_vrh < 0 or self.g_vrh < 0`. -/
def raise_if_unphysical (M S : Fin 6 → Fin 6 → ℚ)
    (f : Except String Unit) : Except String Unit :=
  if k_vrh M S < 0 ∨ g_vrh M S < 0 then
    .error "Bulk or shear modulus is negative, property cannot be determined"
  else f

/-- `trans_v(structure)`: the decorator guard, then the inner
negative-shear check; the velocity `(1e9*g_vrh/ρ)**0.5` is erased. -/
def trans_v (M S : Fin 6 → Fin 6 → ℚ) (_st : Structure) :
    Except String Unit :=
  raise_if_unphysical M S
    (if g_vrh M S < 0 then
      .error "k_vrh or g_vrh is negative, sound velocity is undefined"
    else .ok ())

/-- `long_v(structure)`: same control flow as `trans_v`. -/
def long_v (M S : Fin 6 → Fin 6 → ℚ) (_st : Structure) :
    Except String Unit :=
  raise_if_unphysical M S
    (if g_vrh M S < 0 then
      .error "k_vrh or g_vrh is negative, sound velocity is undefined"
    else .ok ())

/-- `snyder_ac(structure)`: guarded; calls `long_v` then `trans_v`. -/
def snyder_ac (M S : Fin 6 → Fin 6 → ℚ) (st : Structure) :
    Except String Unit :=
  raise_if_unphysical M S
    ((long_v M S st).bind fun _ => (trans_v M S st).bind fun _ => .ok ())

/-- `snyder_opt(structure)`: guarded; calls `long_v` then `trans_v`. -/
def snyder_opt (M S : Fin 6 → Fin 6 → ℚ) (st : Structure) :
    Except String Unit :=
  raise_if_unphysical M S
    ((long_v M S st).bind fun _ => (trans_v M S st).bind fun _ => .ok ())

/-- `snyder_total(structure)`: guarded; `snyder_ac + snyder_opt`. -/
def snyder_total (M S : Fin 6 → Fin 6 → ℚ) (st : Structure) :
    Except String Unit :=
  raise_if_unphysical M S
    ((snyder_ac M S st).bind fun _ => (snyder_opt M S st).bind fun _ =>
      .ok ())

/-- `clarke_thermalcond(structure)`: guarded; the body is pure arithmetic
on masses and `y_mod` (erased). -/
def clarke_thermalcond (M S : Fin 6 → Fin 6 → ℚ) (_st : Structure) :
    Except String Unit :=
  raise_if_unphysical M S (.ok ())

/-- `cahill_thermalcond(structure)`: guarded; calls `long_v` and
`trans_v`. -/
def cahill_thermalcond (M S : Fin 6 → Fin 6 → ℚ) (st : Structure) :
    Except String Unit :=
  raise_if_unphysical M S
    ((long_v M S st).bind fun _ => (trans_v M S st).bind fun _ => .ok ())

/-- `debye_temperature(structure)`: guarded; calls `long_v` and
`trans_v`. -/
def debye_temperature (M S : Fin 6 → Fin 6 → ℚ) (st : Structure) :
    Except String Unit :=
  raise_if_unphysical M S
    ((long_v M S st).bind fun _ => (trans_v M S st).bind fun _ => .ok ())

/-- The eight guarded structure-dependent property names, in source
order. -/
def s_props : List String :=
  ["trans_v", "long_v", "snyder_ac", "snyder_opt", "snyder_total",
   "clarke_thermalcond", "cahill_thermalcond", "debye_temperature"]

/-- The nine unguarded base property names of `property_dict` (pure
arithmetic on `M` and `S`; payloads erased like every dict value). -/
def baseProps : List String :=
  ["k_voigt", "k_reuss", "k_vrh", "g_voigt", "g_reuss", "g_vrh",
   "universal_anisotropy", "homogeneous_poisson", "y_mod"]

/-- Dispatch of `getattr(self, prop)(structure)` over the guarded property
names. -/
def sPropFun (M S : Fin 6 → Fin 6 → ℚ) (st : Structure) (p : String) :
    Except String Unit :=
  if p = "trans_v" then trans_v M S st
  else if p = "long_v" then long_v M S st
  else if p = "snyder_ac" then snyder_ac M S st
  else if p = "snyder_opt" then snyder_opt M S st
  else if p = "snyder_total" then snyder_total M S st
  else if p = "clarke_thermalcond" then clarke_thermalcond M S st
  else if p = "cahill_thermalcond" then cahill_thermalcond M S st
  else debye_temperature M S st

/-- Embedding of `get_structure_property_dict`.  Dict values are erased to
`Unit`: an entry `(p, none)` is Python's `None`, `(p, some ())` a present
value (the `"structure"` entry holds the structure itself). -/
def get_structure_property_dict (M S : Fin 6 → Fin 6 → ℚ) (st : Structure)
    (include_base_props ignore_errors : Bool) :
    Except String (List (String × Option Unit)) :=
  (if ignore_errors ∧ (k_vrh M S < 0 ∨ g_vrh M S < 0) then
    Except.ok (s_props.map (fun p => (p, (none : Option Unit))))
  else
    mapEx (fun p => (sPropFun M S st p).map (fun u => (p, some u)))
      s_props).map
    (fun sp => sp ++ [("structure", some ())]
      ++ (if include_base_props then baseProps.map (fun p => (p, some ()))
          else []))

/-- The negated 6x6 identity Voigt matrix: a concrete unphysical elastic
tensor which is its own matrix inverse. -/
def negI : Fin 6 → Fin 6 → ℚ := fun i j => if i = j then -1 else 0

/-- A concrete structure: one site, one atom, unit weight and volume. -/
def st1 : Structure := ⟨1, 1, 1, 1⟩

end Elastic

namespace Elastic

/-! ### Helper lemmas about the classifier embedding -/

lemma mem_of_getLast?_eq {α : Type} {l : List α} {a : α}
    (h : l.getLast? = some a) : a ∈ l := by
  rcases List.mem_getLast?_eq_getLast (show a ∈ l.getLast? from h) with ⟨hne, rfl⟩
  exact List.getLast_mem hne

lemma argminAbs_mem (f : Fin 6 → ℚ) :
    ∀ (i0 : Fin 6) (l : List (Fin 6)), argminAbs f i0 l ∈ i0 :: l := by
  intro i0 l
  induction l generalizing i0 with
  | nil => simp [argminAbs]
  | cons i rest ih =>
    unfold argminAbs
    by_cases h : |f i0| ≤ |f (argminAbs f i rest)|
    · simp [h]
    · have := ih i
      simp only [if_neg h]
      simp only [List.mem_cons] at this ⊢
      tauto

lemma modeTol_pos : (0 : ℚ) < modeTol := by norm_num [modeTol]

/-- When every entry of `v` is either zero or of magnitude above the
hard-coded `1e-10`, the template-matching pattern and the exact nonzero
pattern coincide. -/
lemma modePattern_eq_exactPattern {v : V6}
    (hb : ∀ i, v i = 0 ∨ |v i| > modeTol) :
    modePattern v = exactPattern v := by
  unfold modePattern exactPattern
  apply List.filter_congr
  intro i _
  rcases hb i with h0 | hgt
  · have : ¬ (0 : ℚ) > modeTol := not_lt.mpr (le_of_lt modeTol_pos)
    simp [h0, this]
  · have hne : v i ≠ 0 := by
      intro h0
      rw [h0] at hgt
      simp only [abs_zero] at hgt
      exact absurd hgt (not_lt.mpr (le_of_lt modeTol_pos))
    simp [hgt, hne]

lemma mapEx_ok_forall₂ {α β : Type} {f : α → Except String β} :
    ∀ {l : List α} {ys : List β},
      mapEx f l = .ok ys → List.Forall₂ (fun a b => f a = .ok b) l ys := by
  intro l
  induction l with
  | nil =>
    intro ys h
    unfold mapEx at h
    cases h
    exact List.Forall₂.nil
  | cons a l ih =>
    intro ys h
    unfold mapEx at h
    cases hfa : f a with
    | error msg => rw [hfa] at h; cases h
    | ok b =>
      rw [hfa] at h
      cases hml : mapEx f l with
      | error msg => rw [hml] at h; cases h
      | ok bs =>
        rw [hml] at h
        cases h
        exact List.Forall₂.cons hfa (ih hml)

lemma mapEx_error_exists {α β : Type} {f : α → Except String β} :
    ∀ {l : List α} {msg : String},
      mapEx f l = .error msg → ∃ a ∈ l, f a = .error msg := by
  intro l
  induction l with
  | nil => intro msg h; cases h
  | cons a l ih =>
    intro msg h
    unfold mapEx at h
    cases hfa : f a with
    | error m => rw [hfa] at h; cases h; exact ⟨a, List.mem_cons_self _ _, hfa⟩
    | ok b =>
      rw [hfa] at h
      cases hml : mapEx f l with
      | error m =>
        rw [hml] at h
        cases h
        rcases ih hml with ⟨x, hx, hfx⟩
        exact ⟨x, List.mem_cons_of_mem _ hx, hfx⟩
      | ok bs => rw [hml] at h; cases h

lemma forall₂_mem_right {α β : Type} {R : α → β → Prop} {l : List α}
    {ys : List β} (h : List.Forall₂ R l ys) :
    ∀ b ∈ ys, ∃ a ∈ l, R a b := by
  induction h with
  | nil => simp
  | cons hR htail ih =>
    intro b hb
    rcases List.mem_cons.mp hb with rfl | hb
    · exact ⟨_, List.mem_cons_self _ _, hR⟩
    · rcases ih b hb with ⟨a, ha, hRa⟩
      exact ⟨a, List.mem_cons_of_mem _ ha, hRa⟩

/-- `groupFor` can only fail with one of the two numpy index errors. -/
lemma groupFor_error_msg {samples : List (V6 × V6)} {veq : V6}
    {addEq sortStates : Bool} {ind : List (Fin 6)} {msg : String}
    (h : groupFor samples veq addEq sortStates ind = .error msg) :
    msg = "index -1 is out of bounds for axis 0 with size 0"
      ∨ msg = "attempt to get argmin of an empty sequence" := by
  simp only [groupFor] at h
  cases hlast : (samples.filter
      (fun p => decide (modePattern p.1 = ind))).getLast? with
  | none => rw [hlast] at h; cases h; left; rfl
  | some last =>
    rw [hlast] at h
    cases ind with
    | nil => cases h; right; rfl
    | cons i0 irest => cases h

/-- Anatomy of a successful `groupFor` call. -/
lemma groupFor_ok {samples : List (V6 × V6)} {veq : V6}
    {addEq sortStates : Bool} {ind : List (Fin 6)} {key : V6}
    {g : List (V6 × V6)}
    (h : groupFor samples veq addEq sortStates ind = .ok (key, g)) :
    ∃ last i0 irest, ind = i0 :: irest
      ∧ (samples.filter (fun p => decide (modePattern p.1 = ind))).getLast?
          = some last
      ∧ key = (fun i => last.1 i / last.1 (argminAbs last.1 i0 irest))
      ∧ g = (if sortStates then
              List.insertionSort (keyLe i0)
                (if addEq then
                  samples.filter (fun p => decide (modePattern p.1 = ind))
                    ++ [(zeroV, veq)]
                 else samples.filter (fun p => decide (modePattern p.1 = ind)))
             else (if addEq then
                  samples.filter (fun p => decide (modePattern p.1 = ind))
                    ++ [(zeroV, veq)]
                 else samples.filter (fun p => decide (modePattern p.1 = ind)))) := by
  simp only [groupFor] at h
  cases hlast : (samples.filter
      (fun p => decide (modePattern p.1 = ind))).getLast? with
  | none => rw [hlast] at h; cases h
  | some last =>
    rw [hlast] at h
    cases ind with
    | nil => cases h
    | cons i0 irest =>
      simp only [Except.ok.injEq, Prod.mk.injEq] at h
      exact ⟨last, i0, irest, rfl, rfl, h.1.symm, h.2.symm⟩

instance (i0 : Fin 6) : IsTotal (V6 × V6) (keyLe i0) :=
  ⟨fun a b => le_total (a.1 i0) (b.1 i0)⟩

instance (i0 : Fin 6) : IsTrans (V6 × V6) (keyLe i0) :=
  ⟨fun _ _ _ hab hbc => le_trans hab hbc⟩

lemma gssd_ok_elim {strains stresses : List V6} {eq_stress : Option V6}
    {tol : ℚ} {addEq sortStates : Bool} {d : List (V6 × List (V6 × V6))}
    (h : get_strain_state_dict strains stresses eq_stress tol addEq sortStates
          = .ok d) :
    ∃ veq, veqOf strains stresses eq_stress addEq = .ok veq
      ∧ mapEx
          (groupFor
            ((strains.map (zeroedV tol)).zip (stresses.map (zeroedV tol)))
            veq addEq sortStates)
          ((strains.map (zeroedV tol)).map exactPattern).dedup = .ok d := by
  unfold get_strain_state_dict at h
  cases hveq : veqOf strains stresses eq_stress addEq with
  | error msg => rw [hveq] at h; cases h
  | ok veq => rw [hveq] at h; exact ⟨veq, rfl, h⟩

lemma gssd_error_elim {strains stresses : List V6} {eq_stress : Option V6}
    {tol : ℚ} {addEq sortStates : Bool} {msg : String}
    (h : get_strain_state_dict strains stresses eq_stress tol addEq sortStates
          = .error msg) :
    veqOf strains stresses eq_stress addEq = .error msg
      ∨ ∃ veq, veqOf strains stresses eq_stress addEq = .ok veq
          ∧ mapEx
              (groupFor
                ((strains.map (zeroedV tol)).zip (stresses.map (zeroedV tol)))
                veq addEq sortStates)
              ((strains.map (zeroedV tol)).map exactPattern).dedup
            = .error msg := by
  unfold get_strain_state_dict at h
  cases hveq : veqOf strains stresses eq_stress addEq with
  | error m => rw [hveq] at h; cases h; left; rfl
  | ok veq => rw [hveq] at h; exact Or.inr ⟨veq, rfl, h⟩

/-- A key produced by a successful `groupFor` has a component equal to 1:
the one at the argmin index, since the last matched sample is nonzero there
(its magnitude exceeds the hard-coded `1e-10`). -/
lemma groupFor_key_has_one {samples : List (V6 × V6)} {veq : V6}
    {addEq sortStates : Bool} {ind : List (Fin 6)} {key : V6}
    {g : List (V6 × V6)}
    (h : groupFor samples veq addEq sortStates ind = .ok (key, g)) :
    ∃ i : Fin 6, key i = 1 := by
  rcases groupFor_ok h with ⟨last, i0, irest, rfl, hlast, hkey, -⟩
  have hmem : last ∈ samples.filter
      (fun p => decide (modePattern p.1 = i0 :: irest)) :=
    mem_of_getLast?_eq hlast
  have hpat : modePattern last.1 = i0 :: irest := by
    have := (List.mem_filter.mp hmem).2
    exact of_decide_eq_true this
  set jmin := argminAbs last.1 i0 irest with hjmin
  have hjmem : jmin ∈ modePattern last.1 := by
    rw [hpat]
    exact argminAbs_mem last.1 i0 irest
  have hgt : |last.1 jmin| > modeTol := by
    have := (List.mem_filter.mp (by
      unfold modePattern at hjmem
      exact hjmem)).2
    exact of_decide_eq_true this
  have hne : last.1 jmin ≠ 0 := by
    intro h0
    rw [h0] at hgt
    simp only [abs_zero] at hgt
    exact absurd hgt (not_lt.mpr (le_of_lt modeTol_pos))
  refine ⟨jmin, ?_⟩
  rw [hkey]
  exact div_self hne

/-- **C7.** Constructing an `NthOrderElasticTensor` from an array of odd
rank always fails with the hard `ValueError`, while an even-rank array
violating the standard Voigt symmetries (beyond tolerance) is still built:
the constructor merely records the warning and returns the input array
unchanged. -/
theorem C7_odd_rank_fails_symmetry_warns {r : ℕ} (a : TensorArr r) (tol : ℚ)
    (hodd : r % 2 = 1) {r2 : ℕ} (b : TensorArr r2) (tol2 : ℚ)
    (heven : r2 % 2 = 0) (hviol : ¬ isVoigtSymmetric b tol2) :
    NthOrderElasticTensor.new a tol = .error "ElasticTensor must have even rank"
      ∧ NthOrderElasticTensor.new b tol2 = .ok ⟨b, true⟩ := by
  constructor
  · unfold NthOrderElasticTensor.new
    simp [hodd]
  · unfold NthOrderElasticTensor.new
    simp [heven, hviol]

/-- Constant stress `9e-9` on every component, for the C5 counterexample. -/
def stressP : V6 := fun _ => 9 / 10 ^ 9

/-- Constant stress `-9e-9` on every component, for the C5 counterexample. -/
def stressM : V6 := fun _ => -(9 / 10 ^ 9)

/-- **C5, counterexample.** The claim says that two zero-strain samples whose
stresses differ beyond `1e-8` cause the ambiguity error.  The code only
compares every zero-strain stress against the FIRST one
(`np.allclose(eq_stress, eq_stress[0])`): with three zero-strain samples of
stresses `0`, `9e-9`, `-9e-9`, the last two differ by `1.8e-8 > 1e-8` in every
component, yet no error is raised and the first stress is returned. -/
theorem C5_counterexample :
    (∃ i : Fin 6, |stressP i - stressM i| > eqTol)
      ∧ find_eq_stress [zeroV, zeroV, zeroV] [zeroV, stressP, stressM] tol10
          = .ok (zeroV, false) := by
  constructor
  · refine ⟨0, ?_⟩
    rw [show stressP 0 - stressM 0 = 18 / 10 ^ 9 from by
          norm_num [stressP, stressM],
        abs_of_pos (by norm_num)]
    norm_num [eqTol]
  · norm_num [find_eq_stress, zeroV, stressP, stressM, tol10, eqTol,
      Fin.forall_fin_succ, abs_of_nonneg, abs_of_nonpos]

/-- **C5 (amended).** `find_eq_stress` behaviour: among the samples whose
strain entries are all below `tol` in magnitude, (1) if there are `N ≥ 2` and
all their stresses agree pairwise within absolute tolerance `1e-8`, the first
such stress is returned with no warning; (2) if some such sample's stress
differs from the FIRST such sample's stress beyond `1e-8` in some component,
the ambiguity `ValueError` is raised; (3) if there are none, the zero stress
is returned together with the non-fatal warning. -/
theorem C5_find_eq_stress_cases (strains stresses : List V6) (tol : ℚ)
    (zs : List V6)
    (hzs : zs = ((strains.zip stresses).filter
        (fun p => decide (∀ i, |p.1 i| < tol))).map Prod.snd) :
    (∀ s0 tl, zs = s0 :: tl →
       ((2 ≤ zs.length → (∀ s ∈ zs, ∀ t ∈ zs, ∀ i, |s i - t i| ≤ eqTol) →
          find_eq_stress strains stresses tol = .ok (s0, false))
        ∧ ((∃ s ∈ zs, ∃ i, |s i - s0 i| > eqTol) →
          find_eq_stress strains stresses tol
            = .error "Multiple stresses found for equilibrium strain state")))
      ∧ (zs = [] → find_eq_stress strains stresses tol = .ok (zeroV, true)) := by
  unfold find_eq_stress
  rw [← hzs]
  constructor
  · rintro s0 tl rfl
    constructor
    · intro _ hall
      have hsame : ((s0 :: tl).all
          (fun s => decide (∀ i, |s i - s0 i| ≤ eqTol))) = true := by
        rw [List.all_eq_true]
        intro s hs
        rw [decide_eq_true_eq]
        exact fun i => hall s hs s0 (List.mem_cons_self _ _) i
      simp only [hsame]
      rw [if_neg]
      rintro ⟨-, hfalse⟩
      exact absurd hfalse (by simp)
    · rintro ⟨s, hs, i, hi⟩
      have hne : s ≠ s0 := by
        rintro rfl
        simp only [sub_self, abs_zero, gt_iff_lt] at hi
        norm_num [eqTol] at hi
      have hfalse : ((s0 :: tl).all
          (fun s => decide (∀ i, |s i - s0 i| ≤ eqTol))) = false := by
        rw [List.all_eq_false]
        refine ⟨s, hs, ?_⟩
        simp only [decide_eq_true_eq]
        push_neg
        exact ⟨i, hi⟩
      have hlen : 1 < (s0 :: tl).length := by
        cases tl with
        | nil =>
          simp only [List.mem_singleton, List.mem_cons, List.not_mem_nil,
            or_false] at hs
          exact absurd hs hne
        | cons a tl2 =>
          simp only [List.length_cons]
          omega
      simp only [hfalse]
      rw [if_pos]
      exact ⟨hlen, trivial⟩
  · rintro rfl
    rfl

/-- Witness for C5: two identical zero-strain samples return the common
stress; an input with no zero-strain sample returns the zero stress with the
warning flag set. -/
theorem C5_witness :
    (find_eq_stress [zeroV, zeroV] [stressP, stressP] tol10 = .ok (stressP, false))
      ∧ (find_eq_stress [stressP, stressP] [stressP, stressM] tol10
          = .ok (zeroV, true)) := by
  constructor
  · exact ((C5_find_eq_stress_cases [zeroV, zeroV] [stressP, stressP] tol10
        [stressP, stressP]
        (by norm_num [zeroV, stressP, tol10, Fin.forall_fin_succ])).1
      stressP [stressP] rfl).1 (by norm_num)
      (by
        intro s hs t ht i
        simp only [List.mem_cons, List.not_mem_nil, or_false] at hs ht
        rcases hs with rfl | rfl <;> rcases ht with rfl | rfl <;>
          norm_num [eqTol])
  · exact (C5_find_eq_stress_cases [stressP, stressP] [stressP, stressM] tol10
        [] (by norm_num [stressP, tol10, Fin.forall_fin_succ, abs_of_pos])).2 rfl

/-- The concrete asymmetric rank-2 witness array for C7:
entry (0,1) is 1, all other entries are 0. -/
def asymArr2 : TensorArr 2 :=
  fun f => if (f 0 : ℕ) = 0 ∧ (f 1 : ℕ) = 1 then 1 else 0

/-- Witness for C7: a rank-1 (odd) array is rejected, and an asymmetric
rank-2 array is built with (only) a warning. -/
theorem C7_witness :
    NthOrderElasticTensor.new (r := 1) (fun _ => 0) (1 / 10 ^ 4)
        = .error "ElasticTensor must have even rank"
      ∧ NthOrderElasticTensor.new asymArr2 (1 / 10 ^ 4)
        = .ok ⟨asymArr2, true⟩ :=
  C7_odd_rank_fails_symmetry_warns _ _ (by decide) _ _ (by decide)
    (by
      intro h
      have := h 0 1 (by decide) (by decide) (fun i => if i = 0 then 0 else 1)
      rw [show asymArr2 (fun i => if i = 0 then 0 else 1) = 1 from by decide,
          show asymArr2 (swapIdx 0 1 (fun i => if i = 0 then 0 else 1)) = 0 from by
            decide] at this
      norm_num at this)

/-! ### Evaluation lemmas for concrete witness inputs -/

lemma fv0 : ((0 : Fin 6) : ℕ) = 0 := rfl

lemma fv1 : ((1 : Fin 6) : ℕ) = 1 := rfl

lemma fv2 : ((2 : Fin 6) : ℕ) = 2 := rfl

lemma fv3 : ((3 : Fin 6) : ℕ) = 3 := rfl

lemma fv4 : ((4 : Fin 6) : ℕ) = 4 := rfl

lemma fv5 : ((5 : Fin 6) : ℕ) = 5 := rfl

lemma zeroedV_eq_self {tol : ℚ} {v : V6} (h : ∀ i, v i = 0 ∨ ¬ |v i| < tol) :
    zeroedV tol v = v := by
  funext i
  unfold zeroedV
  rcases h i with h0 | hge
  · rw [h0]; simp
  · rw [if_neg hge]

lemma zeroedV_e0V : zeroedV tol10 e0V = e0V := by
  apply zeroedV_eq_self
  intro i
  by_cases h : i = 0
  · right; norm_num [e0V, h, tol10]
  · left; simp [e0V, h]

lemma zeroedV_stressP : zeroedV tol10 stressP = stressP := by
  apply zeroedV_eq_self
  intro i
  right
  norm_num [stressP, tol10, abs_of_pos]

lemma zeroedV_stressM : zeroedV tol10 stressM = stressM := by
  apply zeroedV_eq_self
  intro i
  right
  rw [show stressM i = -(9 / 10 ^ 9) from rfl, abs_neg, abs_of_pos (by norm_num)]
  norm_num [tol10]

lemma zeroedV_zeroV : zeroedV tol10 zeroV = zeroV := by
  apply zeroedV_eq_self
  intro i
  left
  rfl

lemma exactPattern_e0V : exactPattern e0V = [0] := by
  norm_num [exactPattern, idxList, e0V, List.filter_cons, Fin.ext_iff,
    fv0, fv1, fv2, fv3, fv4, fv5]

lemma modePattern_e0V : modePattern e0V = [0] := by
  norm_num [modePattern, idxList, e0V, modeTol, List.filter_cons, Fin.ext_iff,
    fv0, fv1, fv2, fv3, fv4, fv5, abs_of_nonneg]

lemma exactPattern_zeroV : exactPattern zeroV = [] := by
  norm_num [exactPattern, idxList, zeroV, List.filter_cons]

lemma modePattern_zeroV : modePattern zeroV = [] := by
  norm_num [modePattern, idxList, zeroV, modeTol, List.filter_cons]

/-! ### Symbol-table lemmas (C2) -/

lemma mem_range'_iff {lo d x : ℕ} :
    x ∈ List.range' lo (d - lo) ↔ lo ≤ x ∧ x < d := by
  rw [List.mem_range']
  constructor
  · rintro ⟨k, hk, rfl⟩
    omega
  · rintro ⟨h1, h2⟩
    exact ⟨x - lo, by omega, by omega⟩

lemma mem_cwrFrom (d : ℕ) :
    ∀ (r lo : ℕ) (t : List ℕ),
      t ∈ cwrFrom d lo r
        ↔ t.length = r ∧ t.Sorted (· ≤ ·) ∧ ∀ x ∈ t, lo ≤ x ∧ x < d := by
  intro r
  induction r with
  | zero =>
    intro lo t
    constructor
    · intro h
      simp only [cwrFrom, List.mem_singleton] at h
      subst h
      exact ⟨rfl, List.sorted_nil, by simp⟩
    · rintro ⟨hlen, -, -⟩
      rw [List.length_eq_zero] at hlen
      subst hlen
      simp [cwrFrom]
  | succ r ih =>
    intro lo t
    constructor
    · intro h
      unfold cwrFrom at h
      rw [List.mem_flatMap] at h
      rcases h with ⟨i, hi, ht⟩
      rcases List.mem_map.mp ht with ⟨s, hs, rfl⟩
      rcases mem_range'_iff.mp hi with ⟨hlo, hid⟩
      rcases (ih i s).mp hs with ⟨hlen, hsort, hbd⟩
      refine ⟨by simp [hlen], ?_, ?_⟩
      · rw [List.sorted_cons]
        exact ⟨fun b hb => (hbd b hb).1, hsort⟩
      · intro x hx
        rcases List.mem_cons.mp hx with rfl | hx
        · exact ⟨hlo, hid⟩
        · rcases hbd x hx with ⟨h1, h2⟩
          exact ⟨le_trans hlo h1, h2⟩
    · rintro ⟨hlen, hsort, hbd⟩
      cases t with
      | nil => simp at hlen
      | cons i s =>
        unfold cwrFrom
        rw [List.mem_flatMap]
        have hib : lo ≤ i ∧ i < d := hbd i (List.mem_cons_self _ _)
        refine ⟨i, mem_range'_iff.mpr hib, ?_⟩
        rw [List.mem_map]
        refine ⟨s, ?_, rfl⟩
        rw [ih i s]
        rw [List.sorted_cons] at hsort
        refine ⟨by simpa using hlen, hsort.2, ?_⟩
        intro x hx
        exact ⟨hsort.1 x hx, (hbd x (List.mem_cons_of_mem _ hx)).2⟩

lemma cwrFrom_length (d : ℕ) :
    ∀ (r lo : ℕ), (cwrFrom d lo r).length = (d - lo + r - 1).choose r := by
  intro r
  induction r with
  | zero => intro lo; simp [cwrFrom]
  | succ r ih =>
    have aux : ∀ (n lo₂ : ℕ), d - lo₂ = n →
        ((List.range' lo₂ n).map
          (List.length ∘ fun i => (cwrFrom d i r).map (i :: ·))).sum
          = (n + r).choose (r + 1) := by
      intro n
      induction n with
      | zero =>
        intro lo₂ _
        simp [Nat.choose_eq_zero_of_lt (by omega : r < r + 1)]
      | succ n ihn =>
        intro lo₂ hd
        rw [List.range'_succ]
        simp only [List.map_cons, List.sum_cons]
        rw [ihn (lo₂ + 1) (by omega)]
        simp only [Function.comp_apply, List.length_map]
        rw [ih lo₂, show d - lo₂ + r - 1 = n + r by omega,
          show n + 1 + r = (n + r) + 1 by omega, Nat.choose_succ_succ]
    intro lo
    unfold cwrFrom
    rw [List.length_flatMap, aux (d - lo) lo rfl]
    congr 1

lemma cwrFrom_nodup (d : ℕ) :
    ∀ (r lo : ℕ), (cwrFrom d lo r).Nodup := by
  intro r
  induction r with
  | zero => intro lo; simp [cwrFrom]
  | succ r ih =>
    intro lo
    unfold cwrFrom
    rw [List.nodup_flatMap]
    constructor
    · intro i _
      exact (ih i).map (fun a b h => by injection h)
    · have hr : (List.range' lo (d - lo)).Nodup :=
        List.nodup_range' lo (d - lo) 1 (by norm_num)
      apply hr.imp ?_
      intro a b hab t hta htb
      rcases List.mem_map.mp hta with ⟨s, -, rfl⟩
      rcases List.mem_map.mp htb with ⟨s2, -, heq⟩
      injection heq with h1 h2
      exact hab h1.symm

lemma foldl_update_const {idx : List ℕ} :
    ∀ (ps : List (List ℕ)) (arr : List ℕ → List ℕ) (t : List ℕ),
      (ps.foldl (fun a p => Function.update a p idx) arr) t
        = if t ∈ ps then idx else arr t := by
  intro ps
  induction ps with
  | nil => simp
  | cons p ps ih =>
    intro arr t
    simp only [List.foldl_cons]
    rw [ih]
    by_cases hmem : t ∈ ps
    · simp [hmem]
    · by_cases hp : t = p
      · subst hp
        simp [hmem, Function.update_same]
      · simp [hmem, hp, Function.update_noteq hp]

lemma writeAll_eq (idx : List ℕ) (arr : List ℕ → List ℕ) (t : List ℕ) :
    writeAll idx arr t = if t.Perm idx then idx else arr t := by
  unfold writeAll
  rw [foldl_update_const]
  simp [List.mem_permutations]

lemma foldl_writeAll_eq {c : List ℕ} :
    ∀ (L : List (List ℕ)) (arr : List ℕ → List ℕ) (t : List ℕ),
      (∀ idx ∈ L, t.Perm idx → idx = c) →
      (arr t = c ∨ ∃ idx ∈ L, t.Perm idx) →
      (L.foldl (fun a idx => writeAll idx a) arr) t = c := by
  intro L
  induction L with
  | nil =>
    rintro arr t - (h | ⟨idx, hidx, -⟩)
    · exact h
    · exact absurd hidx (List.not_mem_nil _)
  | cons idx L ih =>
    intro arr t hw hbase
    simp only [List.foldl_cons]
    apply ih _ _ (fun j hj => hw j (List.mem_cons_of_mem _ hj))
    by_cases hperm : t.Perm idx
    · left
      rw [writeAll_eq, if_pos hperm]
      exact hw idx (List.mem_cons_self _ _) hperm
    · rw [writeAll_eq, if_neg hperm]
      rcases hbase with h | ⟨j, hj, hpj⟩
      · left; exact h
      · rcases List.mem_cons.mp hj with rfl | hjL
        · exact absurd hpj hperm
        · right; exact ⟨j, hjL, hpj⟩

/-- The dense array holds, at every in-range index tuple, the canonical
(sorted) representative of that tuple's permutation class. -/
lemma symbolArray_eq {dim rank : ℕ} {t : List ℕ} (hlen : t.length = rank)
    (hbd : ∀ x ∈ t, x < dim) :
    symbolArray dim rank t = List.insertionSort (· ≤ ·) t := by
  unfold symbolArray
  have hperm : t.Perm (List.insertionSort (· ≤ ·) t) :=
    (List.perm_insertionSort _ t).symm
  have hsorted : (List.insertionSort (· ≤ ·) t).Sorted (· ≤ ·) :=
    List.sorted_insertionSort _ t
  have hcmem : List.insertionSort (· ≤ ·) t ∈ cwrFrom dim 0 rank := by
    rw [mem_cwrFrom]
    refine ⟨hperm.length_eq.symm.trans hlen, hsorted, ?_⟩
    intro x hx
    exact ⟨Nat.zero_le x, hbd x (hperm.mem_iff.mpr hx)⟩
  apply foldl_writeAll_eq
  · intro idx hidx hpidx
    rw [mem_cwrFrom] at hidx
    exact List.eq_of_perm_of_sorted (hpidx.symm.trans hperm) hidx.2.1 hsorted
  · right
    exact ⟨_, hcmem, hperm⟩

/-- **C2.** `get_symbol_list(r)` (dim = 6) returns a symbol vector with
exactly `C(r+5, r)` distinct placeholders (the combinations-with-replacement
count), and in the dense `6^r` array two in-range index tuples hold the same
placeholder if and only if one is a permutation of the other (equivalently,
transposing any two axes leaves the array unchanged). -/
theorem C2_symbol_table (r : ℕ) :
    (get_symbol_list r 6).1.length = Nat.choose (r + 5) r
      ∧ (get_symbol_list r 6).1.Nodup
      ∧ ∀ t1 t2 : List ℕ,
          t1.length = r → t2.length = r →
          (∀ x ∈ t1, x < 6) → (∀ x ∈ t2, x < 6) →
          ((get_symbol_list r 6).2 t1 = (get_symbol_list r 6).2 t2
            ↔ t1.Perm t2) := by
  refine ⟨?_, cwrFrom_nodup 6 r 0, ?_⟩
  · show (cwrFrom 6 0 r).length = _
    rw [cwrFrom_length]
    congr 1
    omega
  · intro t1 t2 h1 h2 hb1 hb2
    show symbolArray 6 r t1 = symbolArray 6 r t2 ↔ _
    rw [symbolArray_eq h1 hb1, symbolArray_eq h2 hb2]
    constructor
    · intro he
      exact (List.perm_insertionSort _ t1).symm.trans
        (he ▸ List.perm_insertionSort (· ≤ ·) t2)
    · intro hp
      refine List.eq_of_perm_of_sorted ?_
        (List.sorted_insertionSort _ _) (List.sorted_insertionSort _ _)
      exact (List.perm_insertionSort _ t1).trans
        (hp.trans (List.perm_insertionSort _ t2).symm)

/-- Witness for C2 at rank 2: the symbol vector has `C(7,2) = 21` distinct
entries, and the dense array identifies `[0,1]` with its transpose
`[1,0]`. -/
theorem C2_witness :
    (get_symbol_list 2 6).1.length = Nat.choose 7 2
      ∧ ((get_symbol_list 2 6).2 [0, 1] = (get_symbol_list 2 6).2 [1, 0]
          ↔ List.Perm [0, 1] [1, 0]) :=
  ⟨(C2_symbol_table 2).1,
    (C2_symbol_table 2).2.2 [0, 1] [1, 0] (by decide) (by decide)
      (by decide) (by decide)⟩

lemma zeroedV_sBnd : zeroedV tol10 sBnd = sBnd := by
  apply zeroedV_eq_self
  intro i
  by_cases h0 : i = 0
  · right; norm_num [sBnd, h0, tol10, abs_of_pos]
  · by_cases h1 : i = 1
    · right; norm_num [sBnd, h0, h1, tol10]
    · left; simp [sBnd, h0, h1]

lemma zeroedV_e1V : zeroedV tol10 e1V = e1V := by
  apply zeroedV_eq_self
  intro i
  by_cases h : i = 1
  · right; norm_num [e1V, h, tol10]
  · left; simp [e1V, h]

lemma zeroedV_s11V : zeroedV tol10 s11V = s11V := by
  apply zeroedV_eq_self
  intro i
  by_cases h0 : i = 0
  · right; norm_num [s11V, h0, tol10]
  · by_cases h1 : i = 1
    · right; norm_num [s11V, h0, h1, tol10]
    · left; simp [s11V, h0, h1]

lemma exactPattern_sBnd : exactPattern sBnd = [0, 1] := by
  norm_num [exactPattern, idxList, sBnd, tol10, List.filter_cons, Fin.ext_iff,
    fv0, fv1, fv2, fv3, fv4, fv5]

lemma modePattern_sBnd : modePattern sBnd = [1] := by
  norm_num [modePattern, idxList, sBnd, tol10, modeTol, List.filter_cons,
    Fin.ext_iff, fv0, fv1, fv2, fv3, fv4, fv5, abs_of_nonneg]

lemma exactPattern_e1V : exactPattern e1V = [1] := by
  norm_num [exactPattern, idxList, e1V, List.filter_cons, Fin.ext_iff,
    fv0, fv1, fv2, fv3, fv4, fv5]

lemma modePattern_e1V : modePattern e1V = [1] := by
  norm_num [modePattern, idxList, e1V, modeTol, List.filter_cons, Fin.ext_iff,
    fv0, fv1, fv2, fv3, fv4, fv5, abs_of_nonneg]

lemma exactPattern_s11V : exactPattern s11V = [0, 1] := by
  norm_num [exactPattern, idxList, s11V, List.filter_cons, Fin.ext_iff,
    fv0, fv1, fv2, fv3, fv4, fv5]

lemma modePattern_s11V : modePattern s11V = [0, 1] := by
  norm_num [modePattern, idxList, s11V, modeTol, List.filter_cons, Fin.ext_iff,
    fv0, fv1, fv2, fv3, fv4, fv5, abs_of_nonneg]

lemma filter_mode_eq_exact {samples : List (V6 × V6)}
    (hbs : ∀ p ∈ samples, modePattern p.1 = exactPattern p.1)
    (ind : List (Fin 6)) :
    samples.filter (fun p => decide (modePattern p.1 = ind))
      = samples.filter (fun p => decide (exactPattern p.1 = ind)) :=
  List.filter_congr (fun p hp => by rw [hbs p hp])

/-- **C4 (amended).** Strain-state classification: provided every entry of
every `tol`-zeroed strain is either exactly zero or of magnitude strictly
above the hard-coded `1e-10` matching threshold, then for each independent
nonzero-index set (in iteration order), the produced group consists of
exactly those (zeroed) samples whose nonzero pattern equals that index set,
and — `sort` being enabled — it is ordered ascending by the strain value at
the group's first nonzero index.  (The original claim, with no proviso, is
refuted at the boundary by `C4_counterexample`: the matching test uses the
hard-coded `1e-10` where the nonzero patterns use exact zero after
`tol`-zeroing.) -/
theorem C4_classification (strains stresses : List V6) (eq_stress : Option V6)
    (tol : ℚ) (d : List (V6 × List (V6 × V6)))
    (hb : ∀ s ∈ strains, ∀ i, zeroedV tol s i = 0 ∨ |zeroedV tol s i| > modeTol)
    (h : get_strain_state_dict strains stresses eq_stress tol false true
          = .ok d) :
    List.Forall₂
      (fun ind (e : V6 × List (V6 × V6)) =>
        e.2.Perm
            (((strains.map (zeroedV tol)).zip
                (stresses.map (zeroedV tol))).filter
              (fun p => decide (exactPattern p.1 = ind)))
          ∧ ∀ i0 irest, ind = i0 :: irest → e.2.Sorted (keyLe i0))
      ((strains.map (zeroedV tol)).map exactPattern).dedup d := by
  rcases gssd_ok_elim h with ⟨veq, -, hmap⟩
  have hbs : ∀ p ∈ (strains.map (zeroedV tol)).zip
      (stresses.map (zeroedV tol)), modePattern p.1 = exactPattern p.1 := by
    intro p hp
    have hp1 : p.1 ∈ strains.map (zeroedV tol) :=
      (List.of_mem_zip hp).1
    rcases List.mem_map.mp hp1 with ⟨s, hs, hzs⟩
    apply modePattern_eq_exactPattern
    intro i
    rw [← hzs]
    exact hb s hs i
  refine (mapEx_ok_forall₂ hmap).imp ?_
  intro ind e hgf
  rcases e with ⟨key, g⟩
  rcases groupFor_ok hgf with ⟨last, i0, irest, rfl, -, -, hg⟩
  simp only [if_true, eq_self_iff_true, Bool.false_eq_true, if_false] at hg
  constructor
  · rw [hg, ← filter_mode_eq_exact hbs]
    exact List.perm_insertionSort _ _
  · intro i0' irest' heq
    cases heq
    rw [hg]
    exact List.sorted_insertionSort _ _

/-- **C4, counterexample.** At `tol = 1e-10` (the default) with a strain
whose first entry is exactly `1e-10`: the zeroed strain has nonzero pattern
`[0, 1]`, so by the claim the sample belongs to the group of index set
`[0, 1]` — but the group only contains the `(1,1,0,0,0,0)` sample, because
the matching test `np.abs(strain) > 1e-10` treats the boundary entry as
zero; the boundary sample instead lands in the `[1]` group. -/
theorem C4_counterexample :
    exactPattern (zeroedV tol10 sBnd) = [0, 1]
      ∧ get_strain_state_dict [sBnd, e1V, s11V] [stressP, stressP, stressP]
          none tol10 false false
        = .ok [(e1V, [(sBnd, stressP), (e1V, stressP)]),
               (s11V, [(s11V, stressP)])]
      ∧ (sBnd, stressP) ∉ [(s11V, stressP)] := by
  refine ⟨by rw [zeroedV_sBnd]; exact exactPattern_sBnd, ?_, ?_⟩
  · norm_num [get_strain_state_dict, veqOf, mapEx, groupFor, argminAbs,
      zeroedV_sBnd, zeroedV_e1V, zeroedV_s11V, zeroedV_stressP,
      exactPattern_sBnd, exactPattern_e1V, exactPattern_s11V,
      modePattern_sBnd, modePattern_e1V, modePattern_s11V,
      s11V, e1V, Fin.ext_iff, fv0, fv1, fv2, fv3, fv4, fv5]
    refine ⟨funext fun i => ?_, funext fun i => ?_⟩ <;>
      by_cases h0 : (i : ℕ) = 0 <;> by_cases h1 : (i : ℕ) = 1 <;>
        simp [e1V, s11V, Fin.ext_iff, h0, h1]
  · intro hmem
    simp only [List.mem_singleton, Prod.mk.injEq] at hmem
    have := congrFun hmem.1 0
    norm_num [sBnd, s11V, tol10] at this

/-- Witness for C4: a single sample along the first Voigt direction
satisfies the proviso, and the classifier groups it exactly as the amended
claim states. -/
theorem C4_witness :
    List.Forall₂
      (fun ind (e : V6 × List (V6 × V6)) =>
        e.2.Perm
            ((([e0V].map (zeroedV tol10)).zip
                ([stressP].map (zeroedV tol10))).filter
              (fun p => decide (exactPattern p.1 = ind)))
          ∧ ∀ i0 irest, ind = i0 :: irest → e.2.Sorted (keyLe i0))
      (([e0V].map (zeroedV tol10)).map exactPattern).dedup
      [(e0V, [(e0V, stressP)])] := by
  apply C4_classification [e0V] [stressP] none tol10 [(e0V, [(e0V, stressP)])]
  · intro s hs i
    simp only [List.mem_singleton] at hs
    subst hs
    rw [zeroedV_e0V]
    by_cases h : i = 0
    · right; norm_num [e0V, h, modeTol]
    · left; simp [e0V, h]
  · norm_num [get_strain_state_dict, veqOf, mapEx, groupFor, argminAbs,
      zeroedV_e0V, zeroedV_stressP, exactPattern_e0V, modePattern_e0V, e0V,
      List.insertionSort, List.orderedInsert]
    rfl

/-- **C9.** Every strain-state key produced by `get_strain_state_dict`
contains at least one component exactly equal to 1: the component at the
smallest-magnitude nonzero index of the last matched sample, by which the
ray is normalized (`strain_state.index(1)` in `diff_fit` therefore always
succeeds on such keys). -/
theorem C9_key_contains_one (strains stresses : List V6)
    (eq_stress : Option V6) (tol : ℚ) (addEq sortStates : Bool)
    (d : List (V6 × List (V6 × V6)))
    (h : get_strain_state_dict strains stresses eq_stress tol addEq sortStates
          = .ok d) :
    ∀ e ∈ d, ∃ i : Fin 6, e.1 i = 1 := by
  intro e he
  rcases gssd_ok_elim h with ⟨veq, -, hmap⟩
  rcases forall₂_mem_right (mapEx_ok_forall₂ hmap) e he with ⟨ind, -, hgf⟩
  rcases e with ⟨key, g⟩
  exact groupFor_key_has_one hgf

/-- Witness for C9: on a single sample along the first Voigt direction the
classifier produces exactly one state whose key is the unit ray, and the
key has a component equal to 1. -/
theorem C9_witness :
    get_strain_state_dict [e0V] [stressP] none tol10 false false
        = .ok [(e0V, [(e0V, stressP)])]
      ∧ ∃ i : Fin 6, e0V i = 1 := by
  have h : get_strain_state_dict [e0V] [stressP] none tol10 false false
      = .ok [(e0V, [(e0V, stressP)])] := by
    norm_num [get_strain_state_dict, veqOf, mapEx, groupFor, argminAbs,
      zeroedV_e0V, zeroedV_stressP, exactPattern_e0V, modePattern_e0V, e0V]
    rfl
  exact ⟨h, C9_key_contains_one _ _ _ _ _ _ _ h (e0V, [(e0V, stressP)])
    (by simp)⟩

/-- **C10 (amended).** When an explicit `eq_stress` is supplied,
equilibrium resolution is skipped: `find_eq_stress` is never consulted, so
the ambiguity `ValueError` cannot be raised, and every produced group
carries the supplied stress as its synthetic zero-strain sample.  However —
this is where the claim fails — an input that actually contains zero-strain
samples makes the classifier crash on the empty nonzero-index set
(`np.argmin` of an empty sequence) before the supplied value is ever used,
so the function does not complete in the scenario the claim describes. -/
theorem C10_supplied_eq_stress_skips_resolution (strains stresses : List V6)
    (v : V6) (tol : ℚ) (addEq sortStates : Bool) :
    (∀ msg,
        get_strain_state_dict strains stresses (some v) tol addEq sortStates
            = .error msg →
          msg ≠ "Multiple stresses found for equilibrium strain state")
      ∧ (∀ d,
          get_strain_state_dict strains stresses (some v) tol addEq sortStates
              = .ok d →
            addEq = true → ∀ e ∈ d, (zeroV, v) ∈ e.2) := by
  constructor
  · intro msg h
    rcases gssd_error_elim h with hveq | ⟨veq, -, hmap⟩
    · unfold veqOf at hveq
      cases addEq <;> simp at hveq
    · rcases mapEx_error_exists hmap with ⟨ind, -, hgf⟩
      rcases groupFor_error_msg hgf with rfl | rfl <;> decide
  · intro d h haddEq e he
    subst haddEq
    rcases gssd_ok_elim h with ⟨veq, hveq, hmap⟩
    have hv : veq = v := by
      unfold veqOf at hveq
      simp at hveq
      exact hveq.symm
    subst hv
    rcases forall₂_mem_right (mapEx_ok_forall₂ hmap) e he with ⟨ind, -, hgf⟩
    rcases e with ⟨key, g⟩
    rcases groupFor_ok hgf with ⟨last, i0, irest, rfl, -, -, hg⟩
    simp only [if_true, eq_self_iff_true] at hg
    by_cases hs : sortStates = true
    · rw [if_pos hs] at hg
      rw [hg]
      have hperm := List.perm_insertionSort (keyLe i0)
        ((List.filter (fun p => decide (modePattern p.1 = i0 :: irest))
          ((strains.map (zeroedV tol)).zip (stresses.map (zeroedV tol))))
          ++ [(zeroV, veq)])
      rw [hperm.mem_iff]
      simp
    · rw [if_neg hs] at hg
      rw [hg]
      simp

/-- **C10, counterexample.** Two exactly-zero-strain samples with
disagreeing stresses and an explicitly supplied equilibrium stress: no
ambiguity error is raised, but the classifier fails on the empty
nonzero-index set (`np.argmin` of an empty sequence) instead of completing
with the supplied value as the claim asserts. -/
theorem C10_counterexample :
    get_strain_state_dict [zeroV, zeroV] [stressP, stressM] (some stressP)
        tol10 true true
      = .error "attempt to get argmin of an empty sequence" := by
  norm_num [get_strain_state_dict, veqOf, mapEx, groupFor,
    zeroedV_zeroV, zeroedV_stressP, zeroedV_stressM,
    exactPattern_zeroV, modePattern_zeroV]

/-! ### Finite-difference coefficient lemmas (C3) -/

lemma toPoly_coeff : ∀ (l : List ℚ) (n : ℕ), (toPoly l).coeff n = l.getD n 0 := by
  intro l
  induction l with
  | nil => intro n; simp [toPoly]
  | cons a p ih =>
    intro n
    cases n with
    | zero =>
      simp [toPoly, Polynomial.mul_coeff_zero]
    | succ n =>
      simp [toPoly, Polynomial.coeff_X_mul, ih n,
        Polynomial.coeff_C, Nat.succ_ne_zero]

lemma toPoly_polyAdd : ∀ (p q : List ℚ),
    toPoly (polyAdd p q) = toPoly p + toPoly q := by
  intro p
  induction p with
  | nil => intro q; simp [polyAdd, toPoly]
  | cons a p ih =>
    intro q
    cases q with
    | nil => simp [polyAdd, toPoly]
    | cons b q =>
      simp only [polyAdd, toPoly, ih q, Polynomial.C_add]
      ring

lemma toPoly_polyScale (c : ℚ) : ∀ (p : List ℚ),
    toPoly (polyScale c p) = Polynomial.C c * toPoly p := by
  intro p
  induction p with
  | nil => simp [polyScale, toPoly]
  | cons a p ih =>
    simp only [polyScale, List.map_cons, toPoly, Polynomial.C_mul]
    rw [show (polyScale c p) = p.map (c * ·) from rfl] at ih
    rw [ih]
    ring

lemma toPoly_polyMulLin (h : ℚ) (p : List ℚ) :
    toPoly (polyMulLin h p) = (Polynomial.X - Polynomial.C h) * toPoly p := by
  unfold polyMulLin
  rw [toPoly_polyAdd, toPoly_polyScale]
  simp only [toPoly, map_neg, Polynomial.C_0]
  ring

lemma toPoly_foldr_polyMulLin : ∀ (L : List ℚ),
    toPoly (L.foldr polyMulLin [1])
      = (L.map (fun h => Polynomial.X - Polynomial.C h)).prod := by
  intro L
  induction L with
  | nil => simp [toPoly]
  | cons h L ih =>
    simp only [List.foldr_cons, List.map_cons, List.prod_cons,
      toPoly_polyMulLin, ih]

lemma toPoly_nodesProd (hs : List ℚ) (j : ℕ) :
    toPoly (nodesProd hs j)
      = ((otherNodes hs j).map
          (fun h => Polynomial.X - Polynomial.C h)).prod :=
  toPoly_foldr_polyMulLin _

lemma degree_linProd_le (L : List ℚ) :
    ((L.map (fun h => Polynomial.X - Polynomial.C h)).prod).degree
      ≤ (L.length : WithBot ℕ) := by
  induction L with
  | nil => simp
  | cons h L ih =>
    simp only [List.map_cons, List.prod_cons, List.length_cons]
    refine le_trans (Polynomial.degree_mul_le _ _) ?_
    calc (Polynomial.X - Polynomial.C h).degree
            + ((L.map (fun x => Polynomial.X - Polynomial.C x)).prod).degree
        ≤ 1 + (L.length : WithBot ℕ) :=
          add_le_add (le_of_eq (Polynomial.degree_X_sub_C h)) ih
      _ = ((L.length + 1 : ℕ) : WithBot ℕ) := by
          rw [Nat.cast_add, Nat.cast_one, add_comm]

lemma eval_linProd (L : List ℚ) (x : ℚ) :
    Polynomial.eval x
        ((L.map (fun h => Polynomial.X - Polynomial.C h)).prod)
      = (L.map (fun h => x - h)).prod := by
  induction L with
  | nil => simp
  | cons h L ih => simp [ih]

lemma otherNodes_length_lt {hs : List ℚ} {j : ℕ} (hj : j < hs.length) :
    (otherNodes hs j).length < hs.length := by
  unfold otherNodes
  rw [List.length_map]
  have : j ∈ List.range hs.length := List.mem_range.mpr hj
  calc ((List.range hs.length).filter (· ≠ j)).length
      < (List.range hs.length).length := by
        rw [List.length_filter_lt_length_iff_exists]
        exact ⟨j, this, by simp⟩
    _ = hs.length := List.length_range _

lemma getD_nodup_inj {hs : List ℚ} (hnd : hs.Nodup) {i j : ℕ}
    (hi : i < hs.length) (hj : j < hs.length)
    (h : hs.getD i 0 = hs.getD j 0) : i = j := by
  rw [List.getD_eq_getElem _ _ hi, List.getD_eq_getElem _ _ hj] at h
  have := (hnd.get_inj_iff (i := ⟨i, hi⟩) (j := ⟨j, hj⟩)).mp (by
    simpa using h)
  simpa using congrArg Fin.val this

lemma denomProd_ne_zero {hs : List ℚ} (hnd : hs.Nodup) {j : ℕ}
    (hj : j < hs.length) : denomProd hs j ≠ 0 := by
  unfold denomProd
  apply List.prod_ne_zero
  intro h0
  rcases List.mem_map.mp h0 with ⟨h, hmem, heq⟩
  rcases List.mem_map.mp hmem with ⟨k, hk, rfl⟩
  have hkr : k ∈ List.range hs.length := (List.mem_filter.mp hk).1
  have hkj : k ≠ j := by
    have := (List.mem_filter.mp hk).2
    simpa using this
  have hklt : k < hs.length := List.mem_range.mp hkr
  have : hs.getD j 0 = hs.getD k 0 := sub_eq_zero.mp heq
  exact hkj (getD_nodup_inj hnd hklt hj this.symm)

lemma eval_nodesProd_ne {hs : List ℚ} {i j : ℕ} (hi : i < hs.length)
    (_hj : j < hs.length) (hij : i ≠ j) :
    Polynomial.eval (hs.getD i 0) (toPoly (nodesProd hs j)) = 0 := by
  rw [toPoly_nodesProd, eval_linProd]
  apply List.prod_eq_zero
  rw [List.mem_map]
  refine ⟨hs.getD i 0, ?_, by ring⟩
  unfold otherNodes
  rw [List.mem_map]
  exact ⟨i, List.mem_filter.mpr ⟨List.mem_range.mpr hi, by simpa using hij⟩,
    rfl⟩

lemma eval_nodesProd_self (hs : List ℚ) (j : ℕ) :
    Polynomial.eval (hs.getD j 0) (toPoly (nodesProd hs j))
      = denomProd hs j := by
  rw [toPoly_nodesProd, eval_linProd]
  rfl

/-- **C3.** Finite-difference coefficients are exact on polynomials: for
every stencil of `m` pairwise-distinct perturbation values and every
derivative order `n < m`, the coefficient vector returned by
`get_diff_coeff` satisfies, for each `k < m`,
`dot(coefficients, stencil^k) = n!` when `k = n` and `0` otherwise — i.e.
the analytic `n`-th derivative of `x^k` at `0`. -/
theorem C3_diff_coeff_exact (hs : List ℚ) (n k : ℕ) (hnd : hs.Nodup)
    (hn : n < hs.length) (hk : k < hs.length) :
    ∑ j ∈ Finset.range hs.length,
        (get_diff_coeff hs n).getD j 0 * hs.getD j 0 ^ k
      = if k = n then (n.factorial : ℚ) else 0 := by
  classical
  set m := hs.length with hm
  set x : ℕ → ℚ := fun j => hs.getD j 0 with hx
  set P : Polynomial ℚ := ∑ j ∈ Finset.range m,
    (x j ^ k / denomProd hs j) • toPoly (nodesProd hs j) with hP
  have hinj : Set.InjOn x (Finset.range m) := by
    intro a ha b hb hab
    exact getD_nodup_inj hnd (List.mem_range.mp (by simpa using ha))
      (List.mem_range.mp (by simpa using hb)) hab
  have hdeg : (P - Polynomial.X ^ k).degree
      < (((Finset.range m).card : ℕ) : WithBot ℕ) := by
    rw [Finset.card_range]
    refine lt_of_le_of_lt (Polynomial.degree_sub_le _ _) ?_
    rw [max_lt_iff]
    constructor
    · refine lt_of_le_of_lt (Polynomial.degree_sum_le _ _) ?_
      rw [Finset.sup_lt_iff (by
        exact WithBot.bot_lt_coe m)]
      intro j hj
      refine lt_of_le_of_lt (Polynomial.degree_smul_le _ _) ?_
      rw [toPoly_nodesProd]
      refine lt_of_le_of_lt (degree_linProd_le _) ?_
      exact_mod_cast otherNodes_length_lt (List.mem_range.mp (by simpa using hj))
    · rw [Polynomial.degree_X_pow]
      exact_mod_cast hk
  have heval : ∀ i ∈ Finset.range m,
      P.eval (x i) = (Polynomial.X ^ k).eval (x i) := by
    intro i hi
    have him : i < m := by simpa using hi
    rw [hP, Polynomial.eval_finset_sum]
    rw [Finset.sum_eq_single i]
    · simp only [Polynomial.eval_smul, smul_eq_mul]
      rw [eval_nodesProd_self]
      rw [div_mul_cancel₀ _ (denomProd_ne_zero hnd him)]
      simp
    · intro j hj hji
      have hjm : j < m := by simpa using hj
      simp only [Polynomial.eval_smul, smul_eq_mul]
      rw [eval_nodesProd_ne him hjm (Ne.symm hji)]
      ring
    · intro hnotmem
      exact absurd hi hnotmem
  have hPX : P = Polynomial.X ^ k :=
    Polynomial.eq_of_degree_sub_lt_of_eval_index_eq _ hinj hdeg heval
  have hcoeff := congrArg (fun q => Polynomial.coeff q n) hPX
  simp only [hP, Polynomial.finset_sum_coeff, Polynomial.coeff_smul,
    smul_eq_mul, Polynomial.coeff_X_pow, toPoly_coeff] at hcoeff
  have hmain : ∑ j ∈ Finset.range m,
      (get_diff_coeff hs n).getD j 0 * x j ^ k
      = (n.factorial : ℚ) * ∑ j ∈ Finset.range m,
          x j ^ k / denomProd hs j * (nodesProd hs j).getD n 0 := by
    rw [Finset.mul_sum]
    apply Finset.sum_congr rfl
    intro j hj
    have hjm : j < m := by simpa using hj
    have : (get_diff_coeff hs n).getD j 0
        = (n.factorial : ℚ) * (nodesProd hs j).getD n 0 / denomProd hs j := by
      unfold get_diff_coeff
      rw [List.getD_eq_getElem _ _ (by simpa using hjm), List.getElem_map,
        List.getElem_range]
    rw [this]
    ring
  rw [hmain, hcoeff]
  by_cases hkn : k = n
  · subst hkn
    simp
  · rw [if_neg hkn, if_neg (fun h => hkn h.symm)]
    ring

/-- Witness for C3: the two-point stencil `[0, 1]` with `n = 1` yields
coefficients whose dot product with the stencil (`k = 1`) is `1! = 1`, and
with the constant samples (`k = 0`) is `0`. -/
theorem C3_witness :
    (∑ j ∈ Finset.range 2,
        (get_diff_coeff [0, 1] 1).getD j 0 * ([0, 1] : List ℚ).getD j 0 ^ 1
      = 1)
      ∧ (∑ j ∈ Finset.range 2,
          (get_diff_coeff [0, 1] 1).getD j 0 * ([0, 1] : List ℚ).getD j 0 ^ 0
        = 0) := by
  constructor
  · have := C3_diff_coeff_exact [0, 1] 1 1 (by norm_num) (by norm_num)
      (by norm_num)
    simpa using this
  · have := C3_diff_coeff_exact [0, 1] 1 0 (by norm_num) (by norm_num)
      (by norm_num)
    simpa using this

/-! ### Unit-strain-state lemmas (shared by C1 and C6) -/

lemma eV_self (i : Fin 6) : eV i i = 1 := by simp [eV]

lemma eV_ne {i k : Fin 6} (h : k ≠ i) : eV i k = 0 := by simp [eV, h]

lemma zeroedV_eV (i : Fin 6) : zeroedV tol10 (eV i) = eV i := by
  apply zeroedV_eq_self
  intro k
  by_cases h : k = i
  · subst h
    right
    rw [eV_self]
    norm_num [tol10]
  · left
    exact eV_ne h

lemma filter_finRange_eq_single (i : Fin 6) :
    (List.finRange 6).filter (fun a => decide (a = i)) = [i] := by
  fin_cases i <;> decide

lemma exactPattern_eV (i : Fin 6) : exactPattern (eV i) = [i] := by
  unfold exactPattern idxList
  have : ∀ k : Fin 6, (decide (eV i k ≠ 0)) = decide (k = i) := by
    intro k
    by_cases h : k = i
    · subst h
      simp [eV_self]
    · simp [eV_ne h, h]
  calc ([0, 1, 2, 3, 4, 5] : List (Fin 6)).filter (fun k => decide (eV i k ≠ 0))
      = ([0, 1, 2, 3, 4, 5] : List (Fin 6)).filter (fun a => decide (a = i)) :=
        List.filter_congr (fun k _ => this k)
    _ = [i] := filter_finRange_eq_single i

lemma modePattern_eV (i : Fin 6) : modePattern (eV i) = [i] := by
  unfold modePattern idxList
  have : ∀ k : Fin 6, (decide (|eV i k| > modeTol)) = decide (k = i) := by
    intro k
    by_cases h : k = i
    · subst h
      rw [eV_self]
      norm_num [modeTol]
    · rw [eV_ne h]
      norm_num [modeTol, h]
  calc ([0, 1, 2, 3, 4, 5] : List (Fin 6)).filter (fun k => decide (|eV i k| > modeTol))
      = ([0, 1, 2, 3, 4, 5] : List (Fin 6)).filter (fun a => decide (a = i)) :=
        List.filter_congr (fun k _ => this k)
    _ = [i] := filter_finRange_eq_single i

lemma find1_eV (i : Fin 6) : find1 (eV i) = some i := by
  unfold find1 idxList
  have : ∀ k : Fin 6, (decide (eV i k = 1)) = decide (k = i) := by
    intro k
    by_cases h : k = i
    · subst h
      simp [eV_self]
    · rw [eV_ne h]
      norm_num [h]
  rw [List.filter_congr (fun k _ => this k),
    show ([0, 1, 2, 3, 4, 5] : List (Fin 6)) = List.finRange 6 from by decide,
    filter_finRange_eq_single i]
  rfl

lemma mapEx_map_ok {α β γ : Type} {f : β → Except String γ} {g : α → β}
    {h : α → γ} :
    ∀ {l : List α}, (∀ a ∈ l, f (g a) = .ok (h a)) →
      mapEx f (l.map g) = .ok (l.map h) := by
  intro l
  induction l with
  | nil => intro _; rfl
  | cons a l ih =>
    intro hall
    simp only [List.map_cons]
    unfold mapEx
    rw [hall a (List.mem_cons_self _ _), ih (fun b hb =>
      hall b (List.mem_cons_of_mem _ hb))]

lemma filter_unit_samples (σ : Fin 6 → V6) (i : Fin 6) :
    ((List.finRange 6).map (fun a => (eV a, σ a))).filter
      (fun p => decide (modePattern p.1 = [i]))
      = [(eV i, σ i)] := by
  rw [List.filter_map]
  have : ((List.finRange 6).filter
      ((fun p : V6 × V6 => decide (modePattern p.1 = [i]))
        ∘ fun a => (eV a, σ a))) = [i] := by
    rw [List.filter_congr (l := List.finRange 6)
      (q := fun a => decide (a = i)) ?_]
    · exact filter_finRange_eq_single i
    · intro a _
      simp only [Function.comp_apply, modePattern_eV a]
      by_cases h : a = i
      · subst h; simp
      · simp [h, fun hc : a = i => h hc]
  rw [this]
  rfl

lemma groupFor_singleton_eval (samples : List (V6 × V6)) (veq : V6)
    (i0 : Fin 6) (x : V6 × V6)
    (hfil : samples.filter (fun p => decide (modePattern p.1 = [i0])) = [x]) :
    groupFor samples veq true true [i0]
      = .ok (fun k => x.1 k / x.1 i0,
          List.insertionSort (keyLe i0) [x, (zeroV, veq)]) := by
  unfold groupFor
  rw [hfil]
  rfl

lemma groupFor_unit_eval (σ : Fin 6 → V6) (i : Fin 6) :
    groupFor ((List.finRange 6).map (fun a => (eV a, σ a))) zeroV true true [i]
      = .ok (eV i, [(zeroV, zeroV), (eV i, σ i)]) := by
  rw [groupFor_singleton_eval _ _ _ _ (filter_unit_samples σ i)]
  have hc : ¬ keyLe i (eV i, σ i) (zeroV, zeroV) := by
    unfold keyLe
    show ¬ ((eV i) i ≤ zeroV i)
    rw [eV_self]
    norm_num [zeroV]
  have hsort : List.insertionSort (keyLe i) [(eV i, σ i), (zeroV, zeroV)]
      = [(zeroV, zeroV), (eV i, σ i)] := by
    simp [List.insertionSort, List.orderedInsert, hc]
  rw [hsort]
  have hkey : (fun k => (eV i, σ i).1 k / (eV i, σ i).1 i) = eV i := by
    funext k
    show eV i k / eV i i = eV i k
    rw [eV_self, div_one]
  rw [hkey]

/-- Full evaluation of the classifier on the six unit strain samples with
arbitrary (zeroing-invariant) stresses. -/
lemma gssd_unit_eval (σ : Fin 6 → V6)
    (hσ : ∀ i, zeroedV tol10 (σ i) = σ i) :
    get_strain_state_dict ((List.finRange 6).map eV)
        ((List.finRange 6).map σ) none tol10 true true
      = .ok ((List.finRange 6).map
          (fun i => (eV i, [(zeroV, zeroV), (eV i, σ i)]))) := by
  have hstr : ((List.finRange 6).map eV).map (zeroedV tol10)
      = (List.finRange 6).map eV := by
    rw [List.map_map]
    apply List.map_congr_left
    intro i _
    exact zeroedV_eV i
  have hsts : ((List.finRange 6).map σ).map (zeroedV tol10)
      = (List.finRange 6).map σ := by
    rw [List.map_map]
    apply List.map_congr_left
    intro i _
    exact hσ i
  have hveq : veqOf ((List.finRange 6).map eV) ((List.finRange 6).map σ)
      none true = .ok zeroV := by
    unfold veqOf
    rw [if_pos rfl]
    have : find_eq_stress ((List.finRange 6).map eV)
        ((List.finRange 6).map σ) tol10 = .ok (zeroV, true) := by
      unfold find_eq_stress
      have hz : (((List.finRange 6).map eV).zip
          ((List.finRange 6).map σ)).filter
          (fun p => decide (∀ k, |p.1 k| < tol10)) = [] := by
        rw [List.filter_eq_nil_iff]
        intro p hp
        rw [List.zip_map'] at hp
        rcases List.mem_map.mp hp with ⟨i, -, rfl⟩
        simp only [decide_eq_true_eq, not_forall]
        refine ⟨i, ?_⟩
        rw [eV_self]
        norm_num [tol10]
      rw [hz]
      rfl
    rw [this]
    rfl
  unfold get_strain_state_dict
  rw [hveq, hstr, hsts, List.zip_map', List.map_map]
  have hind : ((List.finRange 6).map (exactPattern ∘ eV)).dedup
      = (List.finRange 6).map (fun i => [i]) := by
    have : (List.finRange 6).map (exactPattern ∘ eV)
        = (List.finRange 6).map (fun i => [i]) := by
      apply List.map_congr_left
      intro i _
      exact exactPattern_eV i
    rw [this]
    apply List.dedup_eq_self.mpr
    apply List.Nodup.map
    · intro a b hab
      injection hab
    · exact List.nodup_finRange 6
  rw [hind]
  exact mapEx_map_ok (fun i _ => groupFor_unit_eval σ i)

lemma coef01 : get_diff_coeff [0, 1] 1 = [-1, 1] := by
  norm_num [get_diff_coeff, nodesProd, otherNodes, denomProd, polyMulLin,
    polyAdd, polyScale, List.range_succ, List.filter_cons, Nat.factorial]

lemma stateDeriv_unit (σv : V6) (i : Fin 6) :
    stateDeriv (eV i, [(zeroV, zeroV), (eV i, σv)]) = .ok σv := by
  unfold stateDeriv
  rw [find1_eV]
  show Except.ok _ = _
  congr 1
  funext j
  show dotL (get_diff_coeff [zeroV i, eV i i] 1) [zeroV j, σv j] = σv j
  rw [show zeroV i = 0 from rfl, eV_self, coef01]
  show (-1) * zeroV j + (1 * σv j + 0) = σv j
  rw [show zeroV j = 0 from rfl]
  ring

lemma flatMap_idxList_length (D : List V6) :
    (D.flatMap (fun dv => idxList.map dv)).length = 6 * D.length := by
  induction D with
  | nil => rfl
  | cons dv D ih =>
    rw [List.flatMap_cons, List.length_append, ih]
    simp [idxList]
    ring

lemma flatMap_idxList_getD (D : List V6) :
    ∀ (r : ℕ), r < 6 * D.length →
      (D.flatMap (fun dv => idxList.map dv)).getD r 0
        = (D.getD (r / 6) zeroV) ⟨r % 6, Nat.mod_lt _ (by norm_num)⟩ := by
  induction D with
  | nil => intro r hr; simp at hr
  | cons dv D ih =>
    intro r hr
    simp only [List.length_cons] at hr
    rw [List.flatMap_cons]
    by_cases h6 : r < 6
    · rw [List.getD_append _ _ _ _ (by simp [idxList]; omega)]
      have hr6 : r / 6 = 0 := by omega
      rw [hr6]
      interval_cases r <;> rfl
    · rw [List.getD_append_right _ _ _ _ (by simp [idxList]; omega)]
      have hlen : (idxList.map dv).length = 6 := by simp [idxList]
      rw [hlen, ih (r - 6) (by omega)]
      have hmod : (r - 6) % 6 = r % 6 := by omega
      have hcons : (dv :: D).getD (r / 6) zeroV
          = D.getD ((r - 6) / 6) zeroV := by
        rw [show r / 6 = (r - 6) / 6 + 1 from by omega]
        rfl
      rw [hcons]
      have hfin : (⟨(r - 6) % 6, Nat.mod_lt _ (by norm_num)⟩ : Fin 6)
          = ⟨r % 6, Nat.mod_lt _ (by norm_num)⟩ := Fin.ext (by simpa using hmod)
      rw [hfin]

lemma insertionSort_pair (x y : ℕ) :
    List.insertionSort (· ≤ ·) [x, y] = if x ≤ y then [x, y] else [y, x] := by
  simp [List.insertionSort, List.orderedInsert]

lemma sym2_eq (i k : Fin 6) :
    sym2 i k = if (i : ℕ) ≤ (k : ℕ) then [(i : ℕ), (k : ℕ)]
      else [(k : ℕ), (i : ℕ)] := by
  unfold sym2
  rw [symbolArray_eq (by simp) (by
    intro x hx
    simp only [List.mem_cons, List.not_mem_nil, or_false] at hx
    rcases hx with rfl | rfl
    · exact i.2
    · exact k.2)]
  exact insertionSort_pair _ _

lemma sym2_mem_cwr (i k : Fin 6) : sym2 i k ∈ cwrFrom 6 0 2 := by
  rw [mem_cwrFrom, sym2_eq]
  split_ifs with h
  · refine ⟨rfl, ?_, ?_⟩
    · rw [List.sorted_cons]
      exact ⟨by simpa using h, List.sorted_singleton _⟩
    · intro x hx
      simp only [List.mem_cons, List.not_mem_nil, or_false] at hx
      rcases hx with rfl | rfl
      · exact ⟨Nat.zero_le _, i.2⟩
      · exact ⟨Nat.zero_le _, k.2⟩
  · refine ⟨rfl, ?_, ?_⟩
    · rw [List.sorted_cons]
      exact ⟨by simp; omega, List.sorted_singleton _⟩
    · intro x hx
      simp only [List.mem_cons, List.not_mem_nil, or_false] at hx
      rcases hx with rfl | rfl
      · exact ⟨Nat.zero_le _, k.2⟩
      · exact ⟨Nat.zero_le _, i.2⟩

lemma finOf_val (i : Fin 6) : finOf (i : ℕ) = i := by
  unfold finOf
  rw [dif_pos i.2]

lemma symVal_sym2 {Cv : Fin 6 → Fin 6 → ℚ}
    (hsym : ∀ i j, Cv i j = Cv j i) (i k : Fin 6) :
    symVal Cv (sym2 i k) = Cv i k := by
  rw [sym2_eq]
  split_ifs with h
  · show symVal Cv [(i : ℕ), (k : ℕ)] = Cv i k
    unfold symVal
    simp only [List.getD_cons_zero, List.getD_cons_succ]
    rw [finOf_val, finOf_val]
  · show symVal Cv [(k : ℕ), (i : ℕ)] = Cv i k
    unfold symVal
    simp only [List.getD_cons_zero, List.getD_cons_succ]
    rw [finOf_val, finOf_val]
    exact hsym k i

lemma pseudoRow_eV (n j : Fin 6) (s : List ℕ) :
    pseudoRow (eV n) j s = if sym2 j n = s then 1 else 0 := by
  unfold pseudoRow
  rw [Finset.sum_eq_single n]
  · rw [eV_self]
  · intro k _ hkn
    rw [eV_ne hkn]
    simp
  · intro h
    exact absurd (Finset.mem_univ n) h

lemma unitStates_getD {n : ℕ} (hn : n < 6) :
    unitStates.getD n zeroV = eV ⟨n, hn⟩ := by
  unfold unitStates
  rw [List.getD_eq_getElem _ _ (by simpa using hn), List.getElem_map,
    List.getElem_finRange]
  rfl

lemma pseudoMat2_unit {r : ℕ} (hr : r < 36) (s : List ℕ) :
    pseudoMat2 unitStates r s
      = if sym2 ⟨r % 6, Nat.mod_lt _ (by norm_num)⟩ ⟨r / 6, by omega⟩ = s
          then 1 else 0 := by
  unfold pseudoMat2
  rw [unitStates_getD (show r / 6 < 6 by omega), pseudoRow_eV]

lemma except_bind_ok {α β : Type} (a : α) (f : α → Except String β) :
    (Except.ok a : Except String α).bind f = f a := rfl

lemma list_sum_pick {L : List (List ℕ)} (hnd : L.Nodup) {a : List ℕ}
    (ha : a ∈ L) (f : List ℕ → ℚ) :
    (L.map (fun s2 => (if a = s2 then 1 else 0) * f s2)).sum = f a := by
  induction L with
  | nil => cases ha
  | cons x L ih =>
    rcases List.mem_cons.mp ha with rfl | haL
    · have hz : (L.map (fun s2 => (if a = s2 then (1 : ℚ) else 0) * f s2)).sum
          = 0 := by
        apply List.sum_eq_zero
        intro q hq
        rcases List.mem_map.mp hq with ⟨s2, hs2, rfl⟩
        rw [if_neg, zero_mul]
        rintro rfl
        exact (List.nodup_cons.mp hnd).1 hs2
      rw [List.map_cons, List.sum_cons, if_pos rfl, one_mul, hz, add_zero]
    · simp only [List.map_cons, List.sum_cons]
      rw [ih (List.nodup_cons.mp hnd).2 haL, if_neg, zero_mul, zero_add]
      rintro rfl
      exact (List.nodup_cons.mp hnd).1 haL

lemma finset_sum_list_sum (s : Finset ℕ) (L : List (List ℕ))
    (g : ℕ → List ℕ → ℚ) :
    ∑ r ∈ s, (L.map (g r)).sum = (L.map (fun x => ∑ r ∈ s, g r x)).sum := by
  induction L with
  | nil => simp
  | cons x L ih =>
    simp only [List.map_cons, List.sum_cons]
    rw [Finset.sum_add_distrib, ih]

lemma sum_map_mul_left (L : List (List ℕ)) (a : ℚ) (f : List ℕ → ℚ) :
    a * (L.map f).sum = (L.map (fun x => a * f x)).sum := by
  induction L with
  | nil => simp
  | cons x L ih =>
    simp only [List.map_cons, List.sum_cons]
    rw [mul_add, ih]

/-- **C1.** Round-trip of the fitting pipeline at order 2: for synthetic
data `stress = C·strain` (Voigt form) with one sample along each of the six
independent Voigt strain-state directions and `C` a symmetric Voigt matrix
whose entries survive the `1e-10` zeroing, `diff_fit` returns exactly `C`.
`P` is the external `np.linalg.pinv` oracle; the hypothesis `hP` is the
left-inverse identity the Moore-Penrose inverse satisfies for the
full-column-rank coefficient matrix of the six unit states (discharged
concretely by `P0_left_inverse` in the witness). -/
theorem C1_diff_fit_roundtrip (Cv : Fin 6 → Fin 6 → ℚ) (P : List ℕ → ℕ → ℚ)
    (hsym : ∀ i j, Cv i j = Cv j i)
    (hC : ∀ i j, Cv i j = 0 ∨ ¬ |Cv i j| < tol10)
    (hP : ∀ s ∈ cwrFrom 6 0 2, ∀ s2 ∈ cwrFrom 6 0 2,
        (∑ r ∈ Finset.range 36, P s r * pseudoMat2 unitStates r s2)
          = if s = s2 then 1 else 0) :
    diff_fit2 P ((List.finRange 6).map eV)
        ((List.finRange 6).map (fun i => fun k => Cv k i)) none tol10
      = .ok Cv := by
  have hσ : ∀ i, zeroedV tol10 (fun k => Cv k i) = fun k => Cv k i := by
    intro i
    apply zeroedV_eq_self
    intro k
    exact hC k i
  have hgssd := gssd_unit_eval (fun i => fun k => Cv k i) hσ
  have hder : mapEx stateDeriv ((List.finRange 6).map
        (fun i => (eV i, [(zeroV, zeroV), (eV i, fun k => Cv k i)])))
      = .ok ((List.finRange 6).map (fun i => fun k => Cv k i)) :=
    mapEx_map_ok (fun i _ => stateDeriv_unit _ i)
  unfold diff_fit2
  rw [hgssd]
  simp only [except_bind_ok]
  rw [hder]
  simp only [except_bind_ok]
  congr 1
  funext i j
  have hlen : ((((List.finRange 6).map (fun i => fun k => Cv k i))).flatMap
      (fun dv => idxList.map dv)).length = 36 := by
    rw [flatMap_idxList_length]
    simp
  rw [hlen]
  have hsvec : ∀ r, ∀ hr : r < 36,
      ((((List.finRange 6).map (fun i => fun k => Cv k i))).flatMap
        (fun dv => idxList.map dv)).getD r 0
      = symVal Cv (sym2 ⟨r % 6, Nat.mod_lt _ (by norm_num)⟩
          ⟨r / 6, by omega⟩) := by
    intro r hr
    rw [flatMap_idxList_getD _ r (by simp; omega)]
    have hD : ((List.finRange 6).map (fun i => fun k => Cv k i)).getD
        (r / 6) zeroV = fun k => Cv k ⟨r / 6, by omega⟩ := by
      rw [List.getD_eq_getElem _ _ (by simp; omega), List.getElem_map,
        List.getElem_finRange]
      rfl
    rw [hD, symVal_sym2 hsym]
  calc ∑ r ∈ Finset.range 36,
        P (sym2 i j) r
          * ((((List.finRange 6).map (fun i => fun k => Cv k i))).flatMap
              (fun dv => idxList.map dv)).getD r 0
      = ∑ r ∈ Finset.range 36,
          ((cwrFrom 6 0 2).map (fun s2 =>
            P (sym2 i j) r
              * (pseudoMat2 unitStates r s2 * symVal Cv s2))).sum := by
        apply Finset.sum_congr rfl
        intro r hr
        have hr36 : r < 36 := Finset.mem_range.mp hr
        rw [hsvec r hr36,
          ← list_sum_pick (cwrFrom_nodup 6 2 0) (sym2_mem_cwr _ _)
            (symVal Cv),
          sum_map_mul_left]
        apply congrArg List.sum
        apply List.map_congr_left
        intro s2 _
        rw [pseudoMat2_unit hr36]
    _ = ((cwrFrom 6 0 2).map (fun s2 =>
          (∑ r ∈ Finset.range 36, P (sym2 i j) r * pseudoMat2 unitStates r s2)
            * symVal Cv s2)).sum := by
        rw [finset_sum_list_sum]
        apply congrArg List.sum
        apply List.map_congr_left
        intro s2 _
        rw [Finset.sum_mul]
        apply Finset.sum_congr rfl
        intro r _
        ring
    _ = ((cwrFrom 6 0 2).map (fun s2 =>
          (if sym2 i j = s2 then 1 else 0) * symVal Cv s2)).sum := by
        apply congrArg List.sum
        apply List.map_congr_left
        intro s2 hs2
        rw [hP (sym2 i j) (sym2_mem_cwr i j) s2 hs2]
    _ = symVal Cv (sym2 i j) :=
        list_sum_pick (cwrFrom_nodup 6 2 0) (sym2_mem_cwr i j) (symVal Cv)
    _ = Cv i j := symVal_sym2 hsym i j

lemma sum_range36 (f : ℕ → ℚ) :
    ∑ r ∈ Finset.range 36, f r
      = ∑ n ∈ Finset.range 6, ∑ j ∈ Finset.range 6, f (6 * n + j) := by
  rw [← Finset.sum_product']
  apply Finset.sum_nbij' (fun r => (r / 6, r % 6)) (fun p => 6 * p.1 + p.2)
  · intro a ha
    simp only [Finset.mem_range] at ha
    simp only [Finset.mem_product, Finset.mem_range]
    omega
  · intro p hp
    simp only [Finset.mem_product, Finset.mem_range] at hp
    simp only [Finset.mem_range]
    omega
  · intro a ha
    simp only [Finset.mem_range] at ha
    omega
  · intro p hp
    obtain ⟨p1, p2⟩ := p
    simp only [Finset.mem_product, Finset.mem_range] at hp
    simp only [Prod.mk.injEq]
    constructor <;> omega
  · intro a ha
    simp only [Finset.mem_range] at ha
    congr 1
    omega

lemma sym2_eq_pair_iff {i k a b : Fin 6} (hab : (a : ℕ) ≤ (b : ℕ)) :
    sym2 i k = [(a : ℕ), (b : ℕ)]
      ↔ (i = a ∧ k = b) ∨ (i = b ∧ k = a) := by
  rw [sym2_eq]
  simp only [Fin.ext_iff]
  split_ifs with h
  · rw [show (([(i : ℕ), (k : ℕ)] : List ℕ) = [(a : ℕ), (b : ℕ)])
        ↔ ((i : ℕ) = (a : ℕ) ∧ (k : ℕ) = (b : ℕ)) from by simp]
    omega
  · rw [show (([(k : ℕ), (i : ℕ)] : List ℕ) = [(a : ℕ), (b : ℕ)])
        ↔ ((k : ℕ) = (a : ℕ) ∧ (i : ℕ) = (b : ℕ)) from by simp]
    omega

lemma ite_and_split (Pp Qq : Prop) [Decidable Pp] [Decidable Qq] :
    (if Pp ∧ Qq then (1 : ℚ) else 0)
      = (if Pp then (1 : ℚ) else 0) * (if Qq then (1 : ℚ) else 0) := by
  by_cases hp : Pp <;> by_cases hq : Qq <;> simp [hp, hq]

lemma ite_or_split {Pp Qq : Prop} [Decidable Pp] [Decidable Qq]
    (hdisj : ¬ (Pp ∧ Qq)) :
    (if Pp ∨ Qq then (1 : ℚ) else 0)
      = (if Pp then (1 : ℚ) else 0) + (if Qq then (1 : ℚ) else 0) := by
  by_cases hp : Pp
  · rw [if_pos (Or.inl hp), if_pos hp, if_neg (fun hq => hdisj ⟨hp, hq⟩),
      add_zero]
  · by_cases hq : Qq
    · rw [if_pos (Or.inr hq), if_neg hp, if_pos hq, zero_add]
    · rw [if_neg (fun hor => hor.elim hp hq), if_neg hp, if_neg hq, add_zero]

lemma double_sum_pair (av bv : ℕ) (ha : av < 6) (hb : bv < 6) :
    ∑ n ∈ Finset.range 6, ∑ j ∈ Finset.range 6,
        (if j = av ∧ n = bv then (1 : ℚ) else 0) = 1 := by
  have h1 : ∀ n ∈ Finset.range 6,
      (∑ j ∈ Finset.range 6, (if j = av ∧ n = bv then (1 : ℚ) else 0))
        = if n = bv then 1 else 0 := by
    intro n _
    rw [Finset.sum_congr rfl (fun j _ => ite_and_split (j = av) (n = bv))]
    rw [← Finset.sum_mul, Finset.sum_ite_eq' (Finset.range 6) av (fun _ => 1)]
    rw [if_pos (Finset.mem_range.mpr ha), one_mul]
  rw [Finset.sum_congr rfl h1,
    Finset.sum_ite_eq' (Finset.range 6) bv (fun _ => 1),
    if_pos (Finset.mem_range.mpr hb)]

lemma finOf_eq_mk (n : ℕ) (h : n < 6) : finOf n = ⟨n, h⟩ := by
  unfold finOf
  rw [dif_pos h]

lemma count_sym2 (a b : Fin 6) (hab : (a : ℕ) ≤ (b : ℕ)) :
    (∑ r ∈ Finset.range 36,
      (if sym2 (finOf (r % 6)) (finOf (r / 6)) = [(a : ℕ), (b : ℕ)]
        then (1 : ℚ) else 0))
      = if (a : ℕ) = (b : ℕ) then 1 else 2 := by
  have key : ∀ r : ℕ, r < 36 →
      (if sym2 (finOf (r % 6)) (finOf (r / 6)) = [(a : ℕ), (b : ℕ)]
        then (1 : ℚ) else 0)
        = if (r % 6 = (a : ℕ) ∧ r / 6 = (b : ℕ))
            ∨ (r % 6 = (b : ℕ) ∧ r / 6 = (a : ℕ)) then (1 : ℚ) else 0 := by
    intro r hr
    have hiff : (sym2 (finOf (r % 6)) (finOf (r / 6)) = [(a : ℕ), (b : ℕ)])
        ↔ ((r % 6 = (a : ℕ) ∧ r / 6 = (b : ℕ))
            ∨ (r % 6 = (b : ℕ) ∧ r / 6 = (a : ℕ))) := by
      rw [sym2_eq_pair_iff hab,
        finOf_eq_mk (r % 6) (Nat.mod_lt _ (by norm_num)),
        finOf_eq_mk (r / 6) (show r / 6 < 6 by omega)]
      simp [Fin.ext_iff]
    by_cases h : (r % 6 = (a : ℕ) ∧ r / 6 = (b : ℕ))
        ∨ (r % 6 = (b : ℕ) ∧ r / 6 = (a : ℕ))
    · rw [if_pos (hiff.mpr h), if_pos h]
    · rw [if_neg (fun hc => h (hiff.mp hc)), if_neg h]
  rw [Finset.sum_congr rfl
    (fun r hr => key r (Finset.mem_range.mp hr))]
  rw [sum_range36]
  by_cases heq : (a : ℕ) = (b : ℕ)
  · rw [if_pos heq]
    have hcg : ∀ n ∈ Finset.range 6, ∀ j ∈ Finset.range 6,
        (if ((6 * n + j) % 6 = (a : ℕ) ∧ (6 * n + j) / 6 = (b : ℕ))
            ∨ ((6 * n + j) % 6 = (b : ℕ) ∧ (6 * n + j) / 6 = (a : ℕ))
            then (1 : ℚ) else 0)
          = if j = (a : ℕ) ∧ n = (b : ℕ) then (1 : ℚ) else 0 := by
      intro n hn j hj
      simp only [Finset.mem_range] at hn hj
      have hpq : (((6 * n + j) % 6 = (a : ℕ) ∧ (6 * n + j) / 6 = (b : ℕ))
          ∨ ((6 * n + j) % 6 = (b : ℕ) ∧ (6 * n + j) / 6 = (a : ℕ)))
          ↔ (j = (a : ℕ) ∧ n = (b : ℕ)) := by
        constructor
        · intro hor
          rcases hor with ⟨h1, h2⟩ | ⟨h1, h2⟩ <;> exact ⟨by omega, by omega⟩
        · rintro ⟨h1, h2⟩
          exact Or.inl ⟨by omega, by omega⟩
      by_cases hcond : j = (a : ℕ) ∧ n = (b : ℕ)
      · rw [if_pos (hpq.mpr hcond), if_pos hcond]
      · rw [if_neg (fun hc => hcond (hpq.mp hc)), if_neg hcond]
    rw [Finset.sum_congr rfl (fun n hn => Finset.sum_congr rfl (hcg n hn))]
    exact double_sum_pair (a : ℕ) (b : ℕ) a.2 b.2
  · rw [if_neg heq]
    have hcg : ∀ n ∈ Finset.range 6, ∀ j ∈ Finset.range 6,
        (if ((6 * n + j) % 6 = (a : ℕ) ∧ (6 * n + j) / 6 = (b : ℕ))
            ∨ ((6 * n + j) % 6 = (b : ℕ) ∧ (6 * n + j) / 6 = (a : ℕ))
            then (1 : ℚ) else 0)
          = (if j = (a : ℕ) ∧ n = (b : ℕ) then (1 : ℚ) else 0)
            + (if j = (b : ℕ) ∧ n = (a : ℕ) then (1 : ℚ) else 0) := by
      intro n hn j hj
      simp only [Finset.mem_range] at hn hj
      have hpq : (((6 * n + j) % 6 = (a : ℕ) ∧ (6 * n + j) / 6 = (b : ℕ))
          ∨ ((6 * n + j) % 6 = (b : ℕ) ∧ (6 * n + j) / 6 = (a : ℕ)))
          ↔ ((j = (a : ℕ) ∧ n = (b : ℕ)) ∨ (j = (b : ℕ) ∧ n = (a : ℕ))) := by
        constructor
        · intro hor
          rcases hor with ⟨h1, h2⟩ | ⟨h1, h2⟩
          · exact Or.inl ⟨by omega, by omega⟩
          · exact Or.inr ⟨by omega, by omega⟩
        · intro hor
          rcases hor with ⟨h1, h2⟩ | ⟨h1, h2⟩
          · exact Or.inl ⟨by omega, by omega⟩
          · exact Or.inr ⟨by omega, by omega⟩
      have hstep : (if ((6 * n + j) % 6 = (a : ℕ) ∧ (6 * n + j) / 6 = (b : ℕ))
            ∨ ((6 * n + j) % 6 = (b : ℕ) ∧ (6 * n + j) / 6 = (a : ℕ))
            then (1 : ℚ) else 0)
          = if (j = (a : ℕ) ∧ n = (b : ℕ)) ∨ (j = (b : ℕ) ∧ n = (a : ℕ))
            then (1 : ℚ) else 0 := by
        by_cases hcond : (j = (a : ℕ) ∧ n = (b : ℕ))
            ∨ (j = (b : ℕ) ∧ n = (a : ℕ))
        · rw [if_pos (hpq.mpr hcond), if_pos hcond]
        · rw [if_neg (fun hc => hcond (hpq.mp hc)), if_neg hcond]
      rw [hstep]
      exact ite_or_split (fun hboth => heq (by omega))
    rw [Finset.sum_congr rfl (fun n hn => Finset.sum_congr rfl (hcg n hn))]
    rw [Finset.sum_congr rfl (fun n _ => Finset.sum_add_distrib),
      Finset.sum_add_distrib]
    rw [double_sum_pair (a : ℕ) (b : ℕ) a.2 b.2,
      double_sum_pair (b : ℕ) (a : ℕ) b.2 a.2]
    norm_num

lemma pseudoMat2_unit_finOf {r : ℕ} (hr : r < 36) (s : List ℕ) :
    pseudoMat2 unitStates r s
      = if sym2 (finOf (r % 6)) (finOf (r / 6)) = s then 1 else 0 := by
  rw [finOf_eq_mk (r % 6) (Nat.mod_lt _ (by norm_num)),
    finOf_eq_mk (r / 6) (show r / 6 < 6 by omega)]
  exact pseudoMat2_unit hr s

/-- The concrete pseudo-inverse `P0` is a left inverse of the coefficient
matrix of the six unit strain states — the identity `np.linalg.pinv`
satisfies there, proved from the disjoint column supports. -/
lemma P0_left_inverse :
    ∀ s ∈ cwrFrom 6 0 2, ∀ s2 ∈ cwrFrom 6 0 2,
      (∑ r ∈ Finset.range 36, P0 s r * pseudoMat2 unitStates r s2)
        = if s = s2 then 1 else 0 := by
  intro s hs s2 hs2
  rcases (mem_cwrFrom 6 2 0 s).mp hs with ⟨hlen, hsort, hbd⟩
  have hpair : ∃ a b, s = [a, b] := by
    rcases s with _ | ⟨a, _ | ⟨b, _ | ⟨c, t⟩⟩⟩
    · simp at hlen
    · simp at hlen
    · exact ⟨a, b, rfl⟩
    · simp only [List.length_cons] at hlen
      omega
  obtain ⟨a0, b0, rfl⟩ := hpair
  have hab : a0 ≤ b0 := by
    rw [List.sorted_cons] at hsort
    exact hsort.1 b0 (by simp)
  have ha6 : a0 < 6 := (hbd a0 (by simp)).2
  have hb6 : b0 < 6 := (hbd b0 (by simp)).2
  have hw : (if ([a0, b0] : List ℕ).getD 0 0 = ([a0, b0] : List ℕ).getD 1 0
      then (1 : ℚ) else 2) = if a0 = b0 then (1 : ℚ) else 2 := rfl
  by_cases hss : ([a0, b0] : List ℕ) = s2
  · subst hss
    rw [if_pos rfl]
    have hterm : ∀ r : ℕ, r < 36 →
        P0 [a0, b0] r * pseudoMat2 unitStates r [a0, b0]
          = (if sym2 (finOf (r % 6)) (finOf (r / 6)) = [a0, b0]
              then (1 : ℚ) else 0)
            / (if a0 = b0 then (1 : ℚ) else 2) := by
      intro r hr
      unfold P0
      rw [pseudoMat2_unit_finOf hr, hw]
      by_cases hcase : sym2 (finOf (r % 6)) (finOf (r / 6)) = [a0, b0]
      · rw [if_pos hcase, mul_one]
      · rw [if_neg hcase, zero_div, zero_mul]
    rw [Finset.sum_congr rfl
      (fun r hr => hterm r (Finset.mem_range.mp hr))]
    rw [← Finset.sum_div]
    have hcnt := count_sym2 ⟨a0, ha6⟩ ⟨b0, hb6⟩ hab
    have hfa : ((⟨a0, ha6⟩ : Fin 6) : ℕ) = a0 := rfl
    have hfb : ((⟨b0, hb6⟩ : Fin 6) : ℕ) = b0 := rfl
    rw [hfa, hfb] at hcnt
    rw [hcnt]
    by_cases he : a0 = b0
    · rw [if_pos he, div_one]
    · rw [if_neg he]
      norm_num
  · rw [if_neg hss]
    apply Finset.sum_eq_zero
    intro r hr
    have hr36 : r < 36 := Finset.mem_range.mp hr
    unfold P0
    rw [pseudoMat2_unit_finOf hr36 [a0, b0], pseudoMat2_unit_finOf hr36 s2]
    by_cases h2 : sym2 (finOf (r % 6)) (finOf (r / 6)) = s2
    · rw [if_neg (fun hc => hss (hc.symm.trans h2)), zero_div, zero_mul]
    · rw [if_neg h2, mul_zero]

/-- Witness for C1: the all-ones symmetric Voigt matrix is reproduced
exactly by the order-2 fitting pipeline run on the six unit strain states
with stresses `C·strain`, using the concrete pseudo-inverse `P0`. -/
theorem C1_witness :
    diff_fit2 P0 ((List.finRange 6).map eV)
        ((List.finRange 6).map (fun _ => fun _ => (1 : ℚ))) none tol10
      = .ok (fun _ _ => (1 : ℚ)) :=
  C1_diff_fit_roundtrip (fun _ _ => 1) P0 (fun _ _ => rfl)
    (fun _ _ => Or.inr (by norm_num [tol10])) P0_left_inverse

/-- Witness for C10: with a supplied equilibrium stress and an ordinary
nonzero sample, the classifier completes, the ambiguity error is impossible,
and the supplied stress appears as the appended zero-strain sample of the
produced group. -/
theorem C10_witness :
    (∀ msg,
        get_strain_state_dict [e0V] [stressP] (some stressM) tol10 true true
            = .error msg →
          msg ≠ "Multiple stresses found for equilibrium strain state")
      ∧ (∀ d,
          get_strain_state_dict [e0V] [stressP] (some stressM) tol10 true true
              = .ok d →
            true = true → ∀ e ∈ d, (zeroV, stressM) ∈ e.2) :=
  C10_supplied_eq_stress_skips_resolution [e0V] [stressP] stressM tol10
    true true

/-! ### `from_independent_strains` lemmas (C6) -/

lemma filter_unit_then_key (d : List (V6 × List (V6 × V6))) (ii : Fin 6) :
    (d.filter (fun e => decide (e.1 ∈ unitStates))).filter
        (fun e => decide (e.1 = eV ii))
      = d.filter (fun e => decide (e.1 = eV ii)) := by
  induction d with
  | nil => rfl
  | cons e t ih =>
    by_cases h1 : e.1 = eV ii
    · have hmem : e.1 ∈ unitStates := by
        rw [h1]
        exact List.mem_map.mpr ⟨ii, List.mem_finRange ii, rfl⟩
      rw [List.filter_cons, if_pos (by simpa using hmem)]
      rw [List.filter_cons, if_pos (by simpa using h1)]
      rw [List.filter_cons, if_pos (by simpa using h1)]
      rw [ih]
    · by_cases h2 : e.1 ∈ unitStates
      · rw [List.filter_cons, if_pos (by simpa using h2)]
        rw [List.filter_cons, if_neg (by simpa using h1)]
        rw [List.filter_cons, if_neg (by simpa using h1)]
        rw [ih]
      · rw [List.filter_cons, if_neg (by simpa using h2)]
        rw [List.filter_cons, if_neg (by simpa using h1)]
        rw [ih]

lemma dictLookup_filter_unit (d : List (V6 × List (V6 × V6))) (ii : Fin 6) :
    dictLookup (d.filter (fun e => decide (e.1 ∈ unitStates))) (eV ii)
      = dictLookup d (eV ii) := by
  unfold dictLookup
  rw [filter_unit_then_key]

lemma fitFromDict_filter_unit (d : List (V6 × List (V6 × V6))) :
    fitFromDict (d.filter (fun e => decide (e.1 ∈ unitStates)))
      = fitFromDict d := by
  funext ii jj
  unfold fitFromDict
  rw [dictLookup_filter_unit]

/-- **C6.** `from_independent_strains` on a successfully classified input:
whenever any of the six unit Voigt strain states is absent from the
classified dictionary, it raises the error naming exactly the missing
states; when all six are present, the fit proceeds, the extra-states
warning is emitted iff strain states other than the six unit ones exist,
and the extras are ignored — the produced matrix equals the zeroed
least-squares fit computed from the dictionary restricted to the unit
keys. -/
theorem C6_missing_fatal_extras_ignored (strains stresses : List V6)
    (eq_stress : Option V6) (tol : ℚ) (d : List (V6 × List (V6 × V6)))
    (hd : get_strain_state_dict strains stresses eq_stress tol10 true true
      = .ok d) :
    ((∃ s ∈ unitStates, s ∉ d.map Prod.fst) →
      ∃ miss, from_independent_strains strains stresses eq_stress tol
          = .error (.missing miss)
        ∧ miss ≠ []
        ∧ (∀ s, s ∈ miss ↔ s ∈ unitStates ∧ s ∉ d.map Prod.fst))
    ∧ ((∀ s ∈ unitStates, s ∈ d.map Prod.fst) →
      ∃ warn fit,
        from_independent_strains strains stresses eq_stress tol
            = .ok (warn, fit)
        ∧ (warn = true ↔ ∃ k ∈ d.map Prod.fst, k ∉ unitStates)
        ∧ fit = fun ii jj =>
            if |fitFromDict (d.filter
                  (fun e => decide (e.1 ∈ unitStates))) ii jj| < tol
            then 0
            else fitFromDict (d.filter
              (fun e => decide (e.1 ∈ unitStates))) ii jj) := by
  have hred : from_independent_strains strains stresses eq_stress tol
      = (if unitStates.filter
            (fun s => decide (s ∉ d.map Prod.fst)) ≠ [] then
          Except.error (IndepFitError.missing (unitStates.filter
            (fun s => decide (s ∉ d.map Prod.fst))))
        else
          Except.ok (decide (∃ k ∈ d.map Prod.fst, k ∉ unitStates),
            fun ii jj =>
              if |fitFromDict d ii jj| < tol then 0
              else fitFromDict d ii jj)) := by
    unfold from_independent_strains
    rw [hd]
  constructor
  · rintro ⟨s0, hs0u, hs0k⟩
    have hmem : s0 ∈ unitStates.filter
        (fun s => decide (s ∉ d.map Prod.fst)) :=
      List.mem_filter.mpr ⟨hs0u, by simpa using hs0k⟩
    have hne : unitStates.filter
        (fun s => decide (s ∉ d.map Prod.fst)) ≠ [] :=
      List.ne_nil_of_mem hmem
    refine ⟨unitStates.filter (fun s => decide (s ∉ d.map Prod.fst)),
      ?_, hne, ?_⟩
    · rw [hred, if_pos hne]
    · intro s
      constructor
      · intro hs
        rcases List.mem_filter.mp hs with ⟨h1, h2⟩
        exact ⟨h1, by simpa using h2⟩
      · rintro ⟨h1, h2⟩
        exact List.mem_filter.mpr ⟨h1, by simpa using h2⟩
  · intro hall
    have hnil : unitStates.filter
        (fun s => decide (s ∉ d.map Prod.fst)) = [] := by
      rw [List.filter_eq_nil_iff]
      intro s hs
      simpa using hall s hs
    refine ⟨decide (∃ k ∈ d.map Prod.fst, k ∉ unitStates),
      fun ii jj => if |fitFromDict d ii jj| < tol then 0
        else fitFromDict d ii jj,
      ?_, by simp, ?_⟩
    · rw [hred, if_neg (by rw [hnil]; exact fun h => h rfl)]
    · simp only [fitFromDict_filter_unit]

/-- Witness for C6: a single sample along the first Voigt strain direction
classifies successfully into one group, leaving five unit states missing,
so the fit raises the error naming exactly those missing states. -/
theorem C6_witness :
    ∃ miss, from_independent_strains [e0V] [stressP] none tol10
        = .error (.missing miss)
      ∧ miss ≠ []
      ∧ (∀ s, s ∈ miss ↔ s ∈ unitStates
          ∧ s ∉ (([(e0V, [(zeroV, zeroV), (e0V, stressP)])] :
              List (V6 × List (V6 × V6))).map Prod.fst)) := by
  have hfil : ([(e0V, stressP)] : List (V6 × V6)).filter
      (fun p => decide (modePattern p.1 = [(0 : Fin 6)])) = [(e0V, stressP)] := by
    simp [modePattern_e0V]
  have hgf : groupFor [(e0V, stressP)] zeroV true true [(0 : Fin 6)]
      = .ok (e0V, [(zeroV, zeroV), (e0V, stressP)]) := by
    rw [groupFor_singleton_eval [(e0V, stressP)] zeroV 0 (e0V, stressP) hfil]
    have hc : ¬ keyLe 0 (e0V, stressP) (zeroV, zeroV) := by
      unfold keyLe
      show ¬ (e0V 0 ≤ zeroV 0)
      norm_num [e0V, zeroV]
    have hsort : List.insertionSort (keyLe 0)
        [((e0V, stressP) : V6 × V6), (zeroV, zeroV)]
        = [(zeroV, zeroV), (e0V, stressP)] := by
      simp [List.insertionSort, List.orderedInsert, hc]
    rw [hsort]
    have hkey : (fun k => ((e0V, stressP) : V6 × V6).1 k
        / ((e0V, stressP) : V6 × V6).1 0) = e0V := by
      funext k
      show e0V k / e0V 0 = e0V k
      norm_num [e0V]
    rw [hkey]
  have hd : get_strain_state_dict [e0V] [stressP] none tol10 true true
      = .ok [(e0V, [(zeroV, zeroV), (e0V, stressP)])] := by
    have hveq : veqOf [e0V] [stressP] none true = .ok zeroV := by
      unfold veqOf
      rw [if_pos rfl]
      have hfes : find_eq_stress [e0V] [stressP] tol10
          = .ok (zeroV, true) := by
        unfold find_eq_stress
        have hz : (([e0V] : List V6).zip [stressP]).filter
            (fun p => decide (∀ i, |p.1 i| < tol10)) = [] := by
          rw [List.filter_eq_nil_iff]
          intro p hp
          rw [show (([e0V] : List V6).zip [stressP])
              = [(e0V, stressP)] from rfl] at hp
          simp only [List.mem_singleton] at hp
          subst hp
          simp only [decide_eq_true_eq, not_forall]
          refine ⟨0, ?_⟩
          norm_num [e0V, tol10]
        rw [hz]
        rfl
      rw [hfes]
      rfl
    unfold get_strain_state_dict
    rw [hveq]
    have hstr : (([e0V] : List V6).map (zeroedV tol10)) = [e0V] := by
      simp [zeroedV_e0V]
    have hsts : (([stressP] : List V6).map (zeroedV tol10)) = [stressP] := by
      simp [zeroedV_stressP]
    rw [hstr, hsts]
    have hded : (([e0V] : List V6).map exactPattern).dedup
        = [[(0 : Fin 6)]] := by
      rw [List.map_singleton, exactPattern_e0V]
      rfl
    rw [hded]
    show mapEx (groupFor [(e0V, stressP)] zeroV true true) [[(0 : Fin 6)]]
      = .ok [(e0V, [(zeroV, zeroV), (e0V, stressP)])]
    unfold mapEx
    rw [hgf]
    rfl
  have hprem : ∃ s ∈ unitStates,
      s ∉ (([(e0V, [(zeroV, zeroV), (e0V, stressP)])] :
          List (V6 × List (V6 × V6))).map Prod.fst) := by
    refine ⟨eV 1, List.mem_map.mpr ⟨1, List.mem_finRange 1, rfl⟩, ?_⟩
    intro h
    simp only [List.map_cons, List.map_nil, List.mem_singleton] at h
    have h0 := congrFun h 0
    norm_num [eV, e0V, Fin.ext_iff, fv0, fv1] at h0
  exact (C6_missing_fatal_extras_ignored [e0V] [stressP] none tol10
    [(e0V, [(zeroV, zeroV), (e0V, stressP)])] hd).1 hprem

/-! ### `raise_if_unphysical` guard lemmas (C8) -/

/-- **C8.** For every Voigt matrix and compliance whose Voigt-Reuss-Hill
bulk or shear average is negative, and every structure: `trans_v` raises
the unphysical-modulus error; the guard is uniform — each of the eight
structure-dependent properties raises the same error;
`get_structure_property_dict` with `ignore_errors` maps every one of those
eight properties to `None` instead of raising; and the same call without
`ignore_errors` raises. -/
theorem C8_unphysical_guard (M S : Fin 6 → Fin 6 → ℚ) (st : Structure)
    (include_base : Bool)
    (hneg : k_vrh M S < 0 ∨ g_vrh M S < 0) :
    trans_v M S st
        = .error
          "Bulk or shear modulus is negative, property cannot be determined"
      ∧ (∀ p ∈ s_props, sPropFun M S st p
          = .error
            "Bulk or shear modulus is negative, property cannot be determined")
      ∧ (∃ dict,
          get_structure_property_dict M S st include_base true = .ok dict
            ∧ ∀ p ∈ s_props, (p, (none : Option Unit)) ∈ dict)
      ∧ get_structure_property_dict M S st include_base false
          = .error
            "Bulk or shear modulus is negative, property cannot be determined"
      := by
  have hguard : ∀ f, raise_if_unphysical M S f
      = .error
        "Bulk or shear modulus is negative, property cannot be determined" := by
    intro f
    unfold raise_if_unphysical
    rw [if_pos hneg]
  have htv : trans_v M S st
      = .error
        "Bulk or shear modulus is negative, property cannot be determined" := by
    unfold trans_v
    exact hguard _
  have hsp : ∀ p, sPropFun M S st p
      = .error
        "Bulk or shear modulus is negative, property cannot be determined" := by
    intro p
    unfold sPropFun trans_v long_v snyder_ac snyder_opt snyder_total
      clarke_thermalcond cahill_thermalcond debye_temperature
    split_ifs <;> exact hguard _
  refine ⟨htv, fun p _ => hsp p, ?_, ?_⟩
  · refine ⟨(s_props.map (fun p => (p, (none : Option Unit))))
        ++ [("structure", some ())]
        ++ (if include_base then baseProps.map (fun p => (p, some ()))
            else []), ?_, ?_⟩
    · unfold get_structure_property_dict
      rw [@if_pos (true = true ∧ (k_vrh M S < 0 ∨ g_vrh M S < 0)) _
        ⟨rfl, hneg⟩ _ _ _]
      rfl
    · intro p hp
      exact List.mem_append.mpr (Or.inl (List.mem_append.mpr (Or.inl
        (List.mem_map.mpr ⟨p, hp, rfl⟩))))
  · unfold get_structure_property_dict
    rw [@if_neg (false = true ∧ (k_vrh M S < 0 ∨ g_vrh M S < 0)) _
      (fun h => Bool.false_ne_true h.1) _ _ _]
    simp [s_props, mapEx, hsp, Except.map]

/-- Witness for C8: the negated identity Voigt tensor is its own inverse,
has `k_vrh = -1/3 < 0`, and the guard fires on it with a concrete
structure exactly as the theorem states. -/
theorem C8_witness :
    (∀ i j : Fin 6, (∑ k : Fin 6, negI i k * negI k j)
        = if i = j then 1 else 0)
      ∧ (k_vrh negI negI < 0 ∨ g_vrh negI negI < 0)
      ∧ (trans_v negI negI st1
            = .error
              "Bulk or shear modulus is negative, property cannot be determined"
          ∧ (∀ p ∈ s_props, sPropFun negI negI st1 p
              = .error
                "Bulk or shear modulus is negative, property cannot be determined")
          ∧ (∃ dict,
              get_structure_property_dict negI negI st1 true true = .ok dict
                ∧ ∀ p ∈ s_props, (p, (none : Option Unit)) ∈ dict)
          ∧ get_structure_property_dict negI negI st1 true false
              = .error
                "Bulk or shear modulus is negative, property cannot be determined") := by
  have hinv : ∀ i j : Fin 6, (∑ k : Fin 6, negI i k * negI k j)
      = if i = j then 1 else 0 := by
    intro i j
    rw [Finset.sum_eq_single j]
    · unfold negI
      by_cases h : i = j
      · rw [if_pos h, if_pos rfl, if_pos h]
        norm_num
      · rw [if_neg h, if_pos rfl, if_neg h]
        norm_num
    · intro k _ hkj
      unfold negI
      rw [if_neg hkj, mul_zero]
    · intro hj
      exact absurd (Finset.mem_univ j) hj
  have hneg : k_vrh negI negI < 0 ∨ g_vrh negI negI < 0 := by
    left
    norm_num [k_vrh, k_voigt, k_reuss, negI, idx3, Fin.ext_iff,
      fv0, fv1, fv2]
  exact ⟨hinv, hneg, C8_unphysical_guard negI negI st1 true hneg⟩

end Elastic
